import Mathlib

/-!
Shallow embedding of the minihex Hex engine (`src/minihex.py`): the
`HexGame` board / region-connectivity state machine with incremental
flood-fill region tracking, together with the spec-level notions (raw-board
stone connectivity, edge-to-edge chains, virtual-border connectivity)
needed to verify the behavioural claims about it.

Grids are modelled as total functions from coordinates to cell values /
region labels; the real board is indexed by 0-based (row, column) pairs and
each colour's region grid by 0-based coordinates over the padded
(N+2) x (N+2) array, exactly as in the source.  Python integers are `Int`
where sign matters (`empty_fields`, raw action identifiers) and `Nat`
elsewhere.
-/

namespace Minihex

/-- `player.BLACK = 0`, mirroring `class player(IntEnum)`. -/
def player.BLACK : Nat := 0

/-- `player.WHITE = 1`. -/
def player.WHITE : Nat := 1

/-- `player.EMPTY = 2`. -/
def player.EMPTY : Nat := 2

/-- A grid coordinate (row, column). -/
abbrev Pos := Nat × Nat

/-- Hex adjacency: the six-neighbour relation of §4.1, i.e. the 3x3 square
window minus its top-left and bottom-right corners.  Stated with additions
on both sides so that it is meaningful on `Nat` coordinates. -/
def hexAdj (p q : Pos) : Prop :=
  (q.1 = p.1 + 1 ∧ q.2 = p.2) ∨ (p.1 = q.1 + 1 ∧ p.2 = q.2) ∨
  (q.2 = p.2 + 1 ∧ q.1 = p.1) ∨ (p.2 = q.2 + 1 ∧ p.1 = q.1) ∨
  (q.1 = p.1 + 1 ∧ p.2 = q.2 + 1) ∨ (p.1 = q.1 + 1 ∧ q.2 = p.2 + 1)

instance (p q : Pos) : Decidable (hexAdj p q) := by
  unfold hexAdj; infer_instance

/-- Minimum of a list of labels, `none` on the empty list.  Models the head
of Python's `sorted(set(...))` after `0` has been popped. -/
def listMin : List Nat → Option Nat
  | [] => none
  | a :: l =>
    match listMin l with
    | none => some a
    | some b => some (min a b)

/-- Membership in the padded (N+2) x (N+2) region grid. -/
def inPad (N : Nat) (p : Pos) : Prop := p.1 ≤ N + 1 ∧ p.2 ≤ N + 1

instance (N : Nat) (p : Pos) : Decidable (inPad N p) := by
  unfold inPad; infer_instance

/-- Maximum entry of a colour's padded region grid:
models `np.max(self.regions[c])`. -/
def maxLabel (N : Nat) (R : Pos → Nat) : Nat :=
  ((List.range (N + 2)).map fun y =>
    ((List.range (N + 2)).map fun x => R (y, x)).foldr Nat.max 0).foldr Nat.max 0

/-- Number of EMPTY cells of the real N x N board:
models `np.count_nonzero(board == player.EMPTY)`. -/
def countEmpty (N : Nat) (b : Pos → Nat) : Int :=
  ((List.range N).map fun y =>
    ((List.range N).map fun x =>
      if b (y, x) = player.EMPTY then (1 : Int) else 0).foldr (· + ·) 0).foldr (· + ·) 0

/-- The initial border set-up of one colour's padded region grid, from
`HexGame.__init__`: WHITE gets column 0 := 1 and column N+1 := 2, BLACK
gets row 0 := 1 and row N+1 := 2; everything else (and everything outside
the padded array) is 0. -/
def initRegions (N c : Nat) (p : Pos) : Nat :=
  if p.1 ≤ N + 1 ∧ p.2 ≤ N + 1 then
    if c = player.WHITE then
      if p.2 = 0 then 1 else if p.2 = N + 1 then 2 else 0
    else
      if p.1 = 0 then 1 else if p.1 = N + 1 then 2 else 0
  else 0

/-- The game state of `class HexGame`.  `board_size` is the source's
`board.shape[1]` property, made explicit because grids are functions. -/
structure HexGame where
  board_size : Nat
  board : Pos → Nat
  empty_fields : Int
  regions : Nat → Pos → Nat
  region_counter : Nat → Nat
  active_player : Nat
  done : Bool
  winner : Option Nat

/-- `HexGame.__init__` for an empty board with fresh borders
(`connected_stones=None`): the stone-replay loop performs no flood fills,
so the state is exactly the border set-up with counters `max + 1`. -/
def HexGame.init (N active : Nat) : HexGame :=
  { board_size := N
    board := fun _ => player.EMPTY
    empty_fields := countEmpty N fun _ => player.EMPTY
    regions := initRegions N
    region_counter := fun c => maxLabel N (initRegions N c) + 1
    active_player := active
    done := false
    winner := none }

/-- `action_to_coordinate`: `y = action // board_size`,
`x = action - board_size * y` (for in-range `Nat` actions). -/
def HexGame.action_to_coordinate (g : HexGame) (a : Nat) : Pos :=
  (a / g.board_size, a - g.board_size * (a / g.board_size))

/-- `is_valid_move`: the addressed cell is EMPTY. -/
def HexGame.is_valid_move (g : HexGame) (a : Nat) : Prop :=
  g.board (g.action_to_coordinate a) = player.EMPTY

instance (g : HexGame) (a : Nat) : Decidable (g.is_valid_move a) :=
  inferInstanceAs (Decidable (_ = _))

/-- The cells read by `flood_fill` around padded centre (y, x): the 3x3
window minus its two zeroed non-hex corners, i.e. the six hex neighbours
plus the centre itself.  (The source keeps the centre cell in the window;
on a freshly placed stone it holds 0.) -/
def window (y x : Nat) : List Pos :=
  [(y - 1, x), (y - 1, x + 1), (y, x - 1), (y, x), (y, x + 1),
   (y + 1, x - 1), (y + 1, x)]

/-- The non-zero labels present in the flood-fill window around padded
centre (y, x): `sorted(set(...))` with the ever-present label 0 popped,
reduced to its membership semantics. -/
def nbhdLabels (R : Pos → Nat) (y x : Nat) : List Nat :=
  ((window y x).map R).filter fun l => l ≠ 0

/-- The region-grid and counter update performed by `flood_fill` at padded
centre (y, x) for one colour: if no non-zero label is adjacent, the new
cell gets the fresh counter value and the counter increments; otherwise
the new cell gets the minimum adjacent label and every cell holding one of
the other adjacent labels is rewritten to that minimum (full-grid scan). -/
def insertRegions (R : Pos → Nat) (cnt : Nat) (y x : Nat) : (Pos → Nat) × Nat :=
  match listMin (nbhdLabels R y x) with
  | none => (fun p => if p = (y, x) then cnt else R p, cnt + 1)
  | some m =>
    (fun p =>
      if p = (y, x) then m
      else if R p ∈ nbhdLabels R y x ∧ R p ≠ m then m else R p, cnt)

/-- `HexGame.flood_fill(position)`: runs `insertRegions` on the active
player's region grid at the padded image of the real `position`. -/
def HexGame.flood_fill (g : HexGame) (pos : Pos) : HexGame :=
  let c := g.active_player
  let P := insertRegions (g.regions c) (g.region_counter c) (pos.1 + 1) (pos.2 + 1)
  { g with
    regions := fun c2 => if c2 = c then P.1 else g.regions c2
    region_counter := fun c2 => if c2 = c then P.2 else g.region_counter c2 }

/-- The first two lines of `fast_move`: write the active colour into the
addressed cell and decrement `empty_fields`. -/
def HexGame.placeStone (g : HexGame) (yx : Pos) : HexGame :=
  { g with
    board := fun p => if p = yx then g.active_player else g.board p
    empty_fields := g.empty_fields - 1 }

/-- The terminal-status update of `fast_move`: if the mover's padded region
grid holds 1 at its shared corner `[-1, -1] = (N+1, N+1)`, the mover wins;
otherwise the game is drawn-done when no empty field remains. -/
def HexGame.winCheck (g : HexGame) (c : Nat) : HexGame :=
  if g.regions c (g.board_size + 1, g.board_size + 1) = 1 then
    { g with done := true, winner := some c }
  else if g.empty_fields ≤ 0 then { g with done := true }
  else g

/-- `fast_move(action)`: place the stone, flood-fill the mover's regions,
update terminal status, and hand the turn to the other colour.  The
source's return value is the new state's `winner` field. -/
def HexGame.fast_move (g : HexGame) (a : Nat) : HexGame :=
  let c := g.active_player
  let g2 := (g.placeStone (g.action_to_coordinate a)).flood_fill (g.action_to_coordinate a)
  { g2.winCheck c with active_player := (c + 1) % 2 }

/-- `make_move_debug(action)` for in-range actions, in exception-passing
style: the validity check runs before any mutation, so on an occupied
target the raised error (carrying the offending coordinates, as in the
source's message) leaves the state component exactly the input state. -/
def HexGame.make_move_debug (g : HexGame) (a : Nat) :
    HexGame × Except Pos (Option Nat) :=
  if g.is_valid_move a then
    let g2 := g.fast_move a
    (g2, Except.ok g2.winner)
  else (g, Except.error (g.action_to_coordinate a))

/-- `HexGame.copy()`: re-runs `__init__` with the same active player, a
copy of the board and `connected_stones` set to a copy of the regions
(so the flood-fill replay is skipped, `empty_fields` is re-counted and the
region counters are re-derived as `np.max(regions[c]) + 1`), then restores
`done` and `winner`. -/
def HexGame.copy (g : HexGame) : HexGame :=
  { board_size := g.board_size
    board := g.board
    empty_fields := countEmpty g.board_size g.board
    regions := g.regions
    region_counter := fun c => maxLabel g.board_size (g.regions c) + 1
    active_player := g.active_player
    done := g.done
    winner := g.winner }

/-- Numpy index resolution on an axis of length `n`: indices in `[0, n)`
are themselves, indices in `[-n, 0)` wrap to `n + i`, anything else raises
`IndexError` (`none`). -/
def npIndex (n : Nat) (i : Int) : Option Nat :=
  if 0 ≤ i ∧ i < (n : Int) then some i.toNat
  else if -(n : Int) ≤ i ∧ i < 0 then some (i + n).toNat
  else none

/-- `action_to_coordinate` on a raw Python integer action: `//` is floor
division (`Int.fdiv`) and `x = action - board_size * y`. -/
def HexGame.action_to_coordinate_int (g : HexGame) (a : Int) : Int × Int :=
  (Int.fdiv a g.board_size, a - g.board_size * Int.fdiv a g.board_size)

/-- `is_valid_move` on a raw Python integer action, with numpy indexing:
`none` models the `IndexError` escaping from `self.board[coords]`,
`some b` the returned Bool. -/
def HexGame.is_valid_move_int (g : HexGame) (a : Int) : Option Bool :=
  match npIndex g.board_size (g.action_to_coordinate_int a).1,
        npIndex g.board_size (g.action_to_coordinate_int a).2 with
  | some y, some x => some (decide (g.board (y, x) = player.EMPTY))
  | _, _ => none

/-! ## Spec-level notions

Raw-board stone connectivity (the "maximal same-colour connected group" of
§3 / §8, modelled from the spec's words: an independent flood-fill / BFS
over the raw grid), edge-to-edge chains, and connectivity over the padded
grid where a colour's two border rings act as virtual stones. -/

/-- Membership in the real N x N board (0-based raw coordinates). -/
def rawIn (N : Nat) (p : Pos) : Prop := p.1 < N ∧ p.2 < N

instance (N : Nat) (p : Pos) : Decidable (rawIn N p) := by
  unfold rawIn; infer_instance

/-- The coordinate pointing from a colour's near edge to its far edge:
rows for BLACK, columns for WHITE. -/
def axR (c : Nat) (p : Pos) : Nat := if c = player.WHITE then p.2 else p.1

/-- One step between same-colour stones on the raw board. -/
def stoneStep (N c : Nat) (b : Pos → Nat) (u v : Pos) : Prop :=
  hexAdj u v ∧ rawIn N v ∧ b v = c

/-- Modelled from the spec: two raw cells lie in the same maximal group of
colour-`c` stones connected transitively through hex adjacency. -/
def sameGroup (N c : Nat) (b : Pos → Nat) (p q : Pos) : Prop :=
  rawIn N p ∧ b p = c ∧ Relation.ReflTransGen (stoneStep N c b) p q

/-- Modelled from the spec: colour `c` owns an unbroken chain of its
stones joining its two home edges (row 0 to row N-1 for BLACK, column 0 to
column N-1 for WHITE). -/
def chain (N c : Nat) (b : Pos → Nat) : Prop :=
  ∃ s e : Pos, rawIn N s ∧ rawIn N e ∧ b s = c ∧ b e = c ∧
    axR c s = 0 ∧ axR c e = N - 1 ∧
    Relation.ReflTransGen (stoneStep N c b) s e

/-- The padded coordinate along a colour's winning direction. -/
def ax (c : Nat) (p : Pos) : Nat := if c = player.WHITE then p.2 else p.1

/-- The padded coordinate across a colour's winning direction. -/
def ox (c : Nat) (p : Pos) : Nat := if c = player.WHITE then p.1 else p.2

/-- Build a padded coordinate from its axis / off-axis components. -/
def mkp (c a o : Nat) : Pos := if c = player.WHITE then (o, a) else (a, o)

/-- A cell of one of colour `c`'s two pre-seeded border lines of the
padded grid. -/
def isBorder (N c : Nat) (p : Pos) : Prop :=
  inPad N p ∧ (ax c p = 0 ∨ ax c p = N + 1)

/-- A padded coordinate that images a real board cell. -/
def realCell (N : Nat) (p : Pos) : Prop :=
  1 ≤ p.1 ∧ p.1 ≤ N ∧ 1 ≤ p.2 ∧ p.2 ≤ N

/-- The raw coordinate of a real padded cell. -/
def rawOf (p : Pos) : Pos := (p.1 - 1, p.2 - 1)

/-- A virtual stone of colour `c` in the padded grid: a cell of one of
`c`'s border lines, or the padded image of a real cell holding a `c`
stone. -/
def vstone (N c : Nat) (b : Pos → Nat) (p : Pos) : Prop :=
  isBorder N c p ∨ (realCell N p ∧ b (rawOf p) = c)

/-- One step of padded connectivity: a hex-adjacency move landing on a
virtual stone. -/
def gstep (N c : Nat) (b : Pos → Nat) (u v : Pos) : Prop :=
  hexAdj u v ∧ vstone N c b v

/-- Padded connectivity between two virtual stones, with the colour's
border lines participating as stones. -/
def vconn (N c : Nat) (b : Pos → Nat) (p q : Pos) : Prop :=
  Relation.ReflTransGen (gstep N c b) p q

/-! ## Move sequences -/

/-- All game states reachable from `g` by sequences of valid moves
(in-range actions addressing EMPTY cells, submitted only while the game is
not terminal, as §4.2 requires of callers). -/
inductive ReachFrom : HexGame → HexGame → Prop where
  | refl (g : HexGame) : ReachFrom g g
  | step {g h : HexGame} (a : Nat) (hr : ReachFrom g h) (hdone : h.done = false)
      (ha : a < h.board_size * h.board_size) (hv : h.is_valid_move a) :
      ReachFrom g (h.fast_move a)

/-- Game states reachable from an empty N x N board. -/
def Reachable (N : Nat) (g : HexGame) : Prop :=
  ∃ a0, (a0 = 0 ∨ a0 = 1) ∧ ReachFrom (HexGame.init N a0) g

/-- The component of a cell's old region extended towards the insertion
point `t`: `q`'s group contains some hex neighbour of `t` that is a
virtual stone. -/
def connToNbr (N c : Nat) (b : Pos → Nat) (t q : Pos) : Prop :=
  ∃ u, hexAdj t u ∧ vstone N c b u ∧ Relation.ReflTransGen (gstep N c b) q u

/-- The per-colour region-grid invariant maintained by the engine: labels
are non-zero exactly on virtual stones, equal labels characterise padded
connectivity, the near border keeps label 1, the counter strictly
dominates every label (and the sentinels), and the win-detection corner
holds 1 or 2. -/
structure RegionInv (N : Nat) (b : Pos → Nat) (R : Pos → Nat) (cnt c : Nat) : Prop where
  dom : ∀ p, inPad N p → (R p ≠ 0 ↔ vstone N c b p)
  outside : ∀ p, ¬ inPad N p → R p = 0
  comp : ∀ p q, inPad N p → inPad N q → vstone N c b p → vstone N c b q →
      (R p = R q ↔ vconn N c b p q)
  near1 : ∀ p, isBorder N c p → ax c p = 0 → R p = 1
  cnt_gt : ∀ p, inPad N p → R p < cnt
  cnt3 : 3 ≤ cnt
  corner12 : R (N + 1, N + 1) = 1 ∨ R (N + 1, N + 1) = 2

/-- The whole-game invariant of reachable states. -/
def GameInv (N : Nat) (g : HexGame) : Prop :=
  g.board_size = N ∧
  (g.active_player = 0 ∨ g.active_player = 1) ∧
  (g.done = false → g.winner = none) ∧
  ∀ c, c = 0 ∨ c = 1 → RegionInv N g.board (g.regions c) (g.region_counter c) c

/-- A concrete 3x3 game: BLACK (0,0), WHITE (2,2), BLACK (0,2).  The two
black stones both touch BLACK's near edge and share its sentinel label 1
without being connected through stones. -/
def gameA : HexGame := (((HexGame.init 3 0).fast_move 0).fast_move 8).fast_move 2

/-- A concrete 3x3 game: BLACK (1,1) (isolated, gets the fresh label 3),
WHITE (2,2), BLACK (0,1) (merges label 3 into the edge label 1, leaving
BLACK's counter at 4 while the grid's maximum label drops back to 2). -/
def gameB : HexGame := (((HexGame.init 3 0).fast_move 4).fast_move 8).fast_move 1

/-! ## Elementary lemmas about `listMin` and the flood-fill window -/

theorem listMin_eq_none_iff (l : List Nat) : listMin l = none ↔ l = [] := by
  cases l with
  | nil => simp [listMin]
  | cons a l =>
    simp only [listMin]
    cases listMin l <;> simp

theorem listMin_mem {l : List Nat} {m : Nat} (h : listMin l = some m) : m ∈ l := by
  induction l generalizing m with
  | nil => simp [listMin] at h
  | cons a l ih =>
    simp only [listMin] at h
    cases hl : listMin l with
    | none => rw [hl] at h; simp at h; simp [h]
    | some b =>
      rw [hl] at h
      simp only [Option.some.injEq] at h
      subst h
      rcases le_total a b with hab | hab
      · rw [min_eq_left hab]; simp
      · rw [min_eq_right hab]; exact List.mem_cons_of_mem a (ih hl)

theorem listMin_le {l : List Nat} {m : Nat} (h : listMin l = some m) :
    ∀ x ∈ l, m ≤ x := by
  induction l generalizing m with
  | nil => simp
  | cons a l ih =>
    simp only [listMin] at h
    intro x hx
    rcases List.mem_cons.1 hx with rfl | hx
    · cases hl : listMin l with
      | none => rw [hl] at h; simp at h; omega
      | some b =>
        rw [hl] at h
        simp only [Option.some.injEq] at h
        subst h
        exact min_le_left _ _
    · cases hl : listMin l with
      | none =>
        rw [listMin_eq_none_iff] at hl; subst hl; simp at hx
      | some b =>
        rw [hl] at h
        simp only [Option.some.injEq] at h
        subst h
        exact le_trans (min_le_right _ _) (ih hl x hx)

theorem listMin_isSome_of_mem {l : List Nat} {x : Nat} (hx : x ∈ l) :
    ∃ m, listMin l = some m := by
  cases hl : listMin l with
  | none => rw [listMin_eq_none_iff] at hl; subst hl; simp at hx
  | some m => exact ⟨m, rfl⟩

theorem mem_nbhdLabels {R : Pos → Nat} {y x l : Nat} :
    l ∈ nbhdLabels R y x ↔ (∃ u ∈ window y x, R u = l) ∧ l ≠ 0 := by
  simp only [nbhdLabels, List.mem_filter, List.mem_map, decide_not]
  constructor
  · rintro ⟨⟨u, hu, rfl⟩, h0⟩
    exact ⟨⟨u, hu, rfl⟩, by simpa using h0⟩
  · rintro ⟨⟨u, hu, rfl⟩, h0⟩
    exact ⟨⟨u, hu, rfl⟩, by simpa using h0⟩

theorem nbhdLabels_eq_nil_iff {R : Pos → Nat} {y x : Nat} :
    nbhdLabels R y x = [] ↔ ∀ u ∈ window y x, R u = 0 := by
  constructor
  · intro h u hu
    by_contra h0
    have : R u ∈ nbhdLabels R y x := mem_nbhdLabels.2 ⟨⟨u, hu, rfl⟩, h0⟩
    rw [h] at this
    simp at this
  · intro h
    cases hl : nbhdLabels R y x with
    | nil => rfl
    | cons a l =>
      have ha : a ∈ nbhdLabels R y x := by rw [hl]; simp
      rcases mem_nbhdLabels.1 ha with ⟨⟨u, hu, hR⟩, h0⟩
      exact absurd (hR ▸ h u hu) h0

/-! ## Frame lemmas for the state-machine operations -/

namespace HexGame

@[simp] theorem flood_fill_board (g : HexGame) (pos : Pos) :
    (g.flood_fill pos).board = g.board := rfl

@[simp] theorem flood_fill_board_size (g : HexGame) (pos : Pos) :
    (g.flood_fill pos).board_size = g.board_size := rfl

@[simp] theorem flood_fill_empty_fields (g : HexGame) (pos : Pos) :
    (g.flood_fill pos).empty_fields = g.empty_fields := rfl

@[simp] theorem flood_fill_active (g : HexGame) (pos : Pos) :
    (g.flood_fill pos).active_player = g.active_player := rfl

@[simp] theorem flood_fill_done (g : HexGame) (pos : Pos) :
    (g.flood_fill pos).done = g.done := rfl

@[simp] theorem flood_fill_winner (g : HexGame) (pos : Pos) :
    (g.flood_fill pos).winner = g.winner := rfl

theorem flood_fill_regions_ne (g : HexGame) (pos : Pos) {c2 : Nat}
    (h : c2 ≠ g.active_player) :
    (g.flood_fill pos).regions c2 = g.regions c2 := by
  simp only [flood_fill]
  exact if_neg h

theorem flood_fill_counter_ne (g : HexGame) (pos : Pos) {c2 : Nat}
    (h : c2 ≠ g.active_player) :
    (g.flood_fill pos).region_counter c2 = g.region_counter c2 := by
  simp only [flood_fill]
  exact if_neg h

theorem flood_fill_regions_self (g : HexGame) (pos : Pos) :
    (g.flood_fill pos).regions g.active_player =
      (insertRegions (g.regions g.active_player) (g.region_counter g.active_player)
        (pos.1 + 1) (pos.2 + 1)).1 := by
  simp [flood_fill]

theorem flood_fill_counter_self (g : HexGame) (pos : Pos) :
    (g.flood_fill pos).region_counter g.active_player =
      (insertRegions (g.regions g.active_player) (g.region_counter g.active_player)
        (pos.1 + 1) (pos.2 + 1)).2 := by
  simp [flood_fill]

@[simp] theorem placeStone_board_size (g : HexGame) (yx : Pos) :
    (g.placeStone yx).board_size = g.board_size := rfl

@[simp] theorem placeStone_regions (g : HexGame) (yx : Pos) :
    (g.placeStone yx).regions = g.regions := rfl

@[simp] theorem placeStone_counter (g : HexGame) (yx : Pos) :
    (g.placeStone yx).region_counter = g.region_counter := rfl

@[simp] theorem placeStone_active (g : HexGame) (yx : Pos) :
    (g.placeStone yx).active_player = g.active_player := rfl

@[simp] theorem placeStone_done (g : HexGame) (yx : Pos) :
    (g.placeStone yx).done = g.done := rfl

@[simp] theorem placeStone_winner (g : HexGame) (yx : Pos) :
    (g.placeStone yx).winner = g.winner := rfl

@[simp] theorem placeStone_empty_fields (g : HexGame) (yx : Pos) :
    (g.placeStone yx).empty_fields = g.empty_fields - 1 := rfl

theorem placeStone_board (g : HexGame) (yx : Pos) :
    (g.placeStone yx).board = fun p => if p = yx then g.active_player else g.board p := rfl

@[simp] theorem winCheck_board (g : HexGame) (c : Nat) :
    (g.winCheck c).board = g.board := by
  unfold winCheck
  split
  · rfl
  · split <;> rfl

@[simp] theorem winCheck_board_size (g : HexGame) (c : Nat) :
    (g.winCheck c).board_size = g.board_size := by
  unfold winCheck
  split
  · rfl
  · split <;> rfl

@[simp] theorem winCheck_regions (g : HexGame) (c : Nat) :
    (g.winCheck c).regions = g.regions := by
  unfold winCheck
  split
  · rfl
  · split <;> rfl

@[simp] theorem winCheck_counter (g : HexGame) (c : Nat) :
    (g.winCheck c).region_counter = g.region_counter := by
  unfold winCheck
  split
  · rfl
  · split <;> rfl

@[simp] theorem winCheck_empty_fields (g : HexGame) (c : Nat) :
    (g.winCheck c).empty_fields = g.empty_fields := by
  unfold winCheck
  split
  · rfl
  · split <;> rfl

@[simp] theorem winCheck_active (g : HexGame) (c : Nat) :
    (g.winCheck c).active_player = g.active_player := by
  unfold winCheck
  split
  · rfl
  · split <;> rfl

theorem winCheck_winner_of_corner (g : HexGame) (c : Nat)
    (h : g.regions c (g.board_size + 1, g.board_size + 1) = 1) :
    (g.winCheck c).winner = some c := by
  unfold winCheck
  rw [if_pos h]

theorem winCheck_winner_of_not_corner (g : HexGame) (c : Nat)
    (h : g.regions c (g.board_size + 1, g.board_size + 1) ≠ 1) :
    (g.winCheck c).winner = g.winner := by
  unfold winCheck
  rw [if_neg h]
  split <;> rfl

theorem winCheck_done_of_corner (g : HexGame) (c : Nat)
    (h : g.regions c (g.board_size + 1, g.board_size + 1) = 1) :
    (g.winCheck c).done = true := by
  unfold winCheck
  rw [if_pos h]

theorem winCheck_done_of_quiet (g : HexGame) (c : Nat)
    (h : g.regions c (g.board_size + 1, g.board_size + 1) ≠ 1)
    (h2 : ¬ g.empty_fields ≤ 0) :
    (g.winCheck c).done = g.done := by
  unfold winCheck
  rw [if_neg h, if_neg h2]

theorem winCheck_done_of_full (g : HexGame) (c : Nat)
    (h : g.regions c (g.board_size + 1, g.board_size + 1) ≠ 1)
    (h2 : g.empty_fields ≤ 0) :
    (g.winCheck c).done = true := by
  unfold winCheck
  rw [if_neg h, if_pos h2]

theorem flood_fill_place_regions (g : HexGame) (yx : Pos) :
    ((g.placeStone yx).flood_fill yx).regions g.active_player =
      (insertRegions (g.regions g.active_player) (g.region_counter g.active_player)
        (yx.1 + 1) (yx.2 + 1)).1 := by
  have h := flood_fill_regions_self (g.placeStone yx) yx
  simpa using h

theorem flood_fill_place_counter (g : HexGame) (yx : Pos) :
    ((g.placeStone yx).flood_fill yx).region_counter g.active_player =
      (insertRegions (g.regions g.active_player) (g.region_counter g.active_player)
        (yx.1 + 1) (yx.2 + 1)).2 := by
  have h := flood_fill_counter_self (g.placeStone yx) yx
  simpa using h

@[simp] theorem fast_move_active (g : HexGame) (a : Nat) :
    (g.fast_move a).active_player = (g.active_player + 1) % 2 := rfl

@[simp] theorem fast_move_board_size (g : HexGame) (a : Nat) :
    (g.fast_move a).board_size = g.board_size := by
  show (((g.placeStone (g.action_to_coordinate a)).flood_fill
      (g.action_to_coordinate a)).winCheck g.active_player).board_size = _
  simp

theorem fast_move_board (g : HexGame) (a : Nat) :
    (g.fast_move a).board =
      fun p => if p = g.action_to_coordinate a then g.active_player else g.board p := by
  show (((g.placeStone (g.action_to_coordinate a)).flood_fill
      (g.action_to_coordinate a)).winCheck g.active_player).board = _
  rw [winCheck_board, flood_fill_board, placeStone_board]

@[simp] theorem fast_move_empty_fields (g : HexGame) (a : Nat) :
    (g.fast_move a).empty_fields = g.empty_fields - 1 := by
  show (((g.placeStone (g.action_to_coordinate a)).flood_fill
      (g.action_to_coordinate a)).winCheck g.active_player).empty_fields = _
  simp

theorem fast_move_regions_ne (g : HexGame) (a : Nat) {c2 : Nat}
    (h : c2 ≠ g.active_player) :
    (g.fast_move a).regions c2 = g.regions c2 := by
  show ((((g.placeStone (g.action_to_coordinate a)).flood_fill
      (g.action_to_coordinate a)).winCheck g.active_player).regions) c2 = _
  rw [winCheck_regions]
  rw [flood_fill_regions_ne _ _ (by simpa using h)]
  rfl

theorem fast_move_counter_ne (g : HexGame) (a : Nat) {c2 : Nat}
    (h : c2 ≠ g.active_player) :
    (g.fast_move a).region_counter c2 = g.region_counter c2 := by
  show ((((g.placeStone (g.action_to_coordinate a)).flood_fill
      (g.action_to_coordinate a)).winCheck g.active_player).region_counter) c2 = _
  rw [winCheck_counter]
  rw [flood_fill_counter_ne _ _ (by simpa using h)]
  rfl

theorem fast_move_regions_self (g : HexGame) (a : Nat) :
    (g.fast_move a).regions g.active_player =
      (insertRegions (g.regions g.active_player) (g.region_counter g.active_player)
        ((g.action_to_coordinate a).1 + 1) ((g.action_to_coordinate a).2 + 1)).1 := by
  show ((((g.placeStone (g.action_to_coordinate a)).flood_fill
      (g.action_to_coordinate a)).winCheck g.active_player).regions) g.active_player = _
  rw [winCheck_regions, flood_fill_place_regions]

theorem fast_move_counter_self (g : HexGame) (a : Nat) :
    (g.fast_move a).region_counter g.active_player =
      (insertRegions (g.regions g.active_player) (g.region_counter g.active_player)
        ((g.action_to_coordinate a).1 + 1) ((g.action_to_coordinate a).2 + 1)).2 := by
  show ((((g.placeStone (g.action_to_coordinate a)).flood_fill
      (g.action_to_coordinate a)).winCheck g.active_player).region_counter) g.active_player = _
  rw [winCheck_counter, flood_fill_place_counter]

theorem fast_move_winner (g : HexGame) (a : Nat) :
    (g.fast_move a).winner =
      if (insertRegions (g.regions g.active_player) (g.region_counter g.active_player)
            ((g.action_to_coordinate a).1 + 1) ((g.action_to_coordinate a).2 + 1)).1
          (g.board_size + 1, g.board_size + 1) = 1
      then some g.active_player else g.winner := by
  show (((g.placeStone (g.action_to_coordinate a)).flood_fill
      (g.action_to_coordinate a)).winCheck g.active_player).winner = _
  unfold winCheck
  simp only [flood_fill_board_size, placeStone_board_size, flood_fill_place_regions]
  split
  · rfl
  · split <;> rfl

theorem fast_move_done (g : HexGame) (a : Nat) :
    (g.fast_move a).done =
      if (insertRegions (g.regions g.active_player) (g.region_counter g.active_player)
            ((g.action_to_coordinate a).1 + 1) ((g.action_to_coordinate a).2 + 1)).1
          (g.board_size + 1, g.board_size + 1) = 1
      then true
      else if g.empty_fields - 1 ≤ 0 then true else g.done := by
  show (((g.placeStone (g.action_to_coordinate a)).flood_fill
      (g.action_to_coordinate a)).winCheck g.active_player).done = _
  unfold winCheck
  simp only [flood_fill_board_size, placeStone_board_size, flood_fill_place_regions,
    flood_fill_empty_fields, placeStone_empty_fields]
  split
  · rfl
  · split <;> rfl

end HexGame

/-! ## Reachability of the concrete example games -/

theorem reachable_gameA : Reachable 3 gameA := by
  refine ⟨0, Or.inl rfl, ?_⟩
  exact ReachFrom.step 2
    (ReachFrom.step 8
      (ReachFrom.step 0 (ReachFrom.refl _) (by decide) (by decide) (by decide))
      (by decide) (by decide) (by decide))
    (by decide) (by decide) (by decide)

theorem reachable_gameB : Reachable 3 gameB := by
  refine ⟨0, Or.inl rfl, ?_⟩
  exact ReachFrom.step 1
    (ReachFrom.step 8
      (ReachFrom.step 4 (ReachFrom.refl _) (by decide) (by decide) (by decide))
      (by decide) (by decide) (by decide))
    (by decide) (by decide) (by decide)

/-! ## Claim C9 -/

/-- C9: after every accepted move — `fast_move` being the whole move
application, also reached from safe mode — the active colour is set to the
other colour, unconditionally, hence in particular also when the move made
the game terminal by win or by filling the board. -/
theorem c9_turn_always_flips (g : HexGame) (a : Nat) :
    (g.fast_move a).active_player = (g.active_player + 1) % 2 := rfl

/-! ## Claim C5 -/

/-- C5: in safe (debug) mode, a move addressing an occupied in-range cell
is rejected with an error carrying the offending coordinates, and the
returned state component is exactly the prior state — board, empty count,
both region grids, counters, active colour, terminal flag and winner are
all untouched because the validity check precedes every mutation. -/
theorem c5_debug_rejects_occupied (g : HexGame) (a : Nat)
    (ha : a < g.board_size * g.board_size)
    (h : g.board (g.action_to_coordinate a) ≠ player.EMPTY) :
    g.make_move_debug a = (g, Except.error (g.action_to_coordinate a)) := by
  unfold HexGame.make_move_debug
  have h' : ¬ g.is_valid_move a := h
  rw [if_neg h']

theorem c5_debug_rejects_occupied_witness :
    ((HexGame.init 2 0).fast_move 0).make_move_debug 0 =
      (((HexGame.init 2 0).fast_move 0),
        Except.error (((HexGame.init 2 0).fast_move 0).action_to_coordinate 0)) :=
  c5_debug_rejects_occupied ((HexGame.init 2 0).fast_move 0) 0 (by decide) (by decide)

/-! ## Claim C3 -/

/-- C3: when `flood_fill` runs at a cell (with its still-unassigned centre,
label 0) whose padded-grid window holds at least one non-zero label, the
new cell is assigned the minimum such label, every cell of the region grid
holding one of the window's non-zero labels is rewritten to that minimum,
and afterwards none of the other window labels appears anywhere in the
region grid. -/
theorem c3_merge_to_minimum (g : HexGame) (pos : Pos)
    (h0 : g.regions g.active_player (pos.1 + 1, pos.2 + 1) = 0)
    (L : Nat)
    (hL : L ∈ nbhdLabels (g.regions g.active_player) (pos.1 + 1) (pos.2 + 1)) :
    ∃ m, listMin (nbhdLabels (g.regions g.active_player) (pos.1 + 1) (pos.2 + 1)) = some m ∧
      m ∈ nbhdLabels (g.regions g.active_player) (pos.1 + 1) (pos.2 + 1) ∧
      (∀ l ∈ nbhdLabels (g.regions g.active_player) (pos.1 + 1) (pos.2 + 1), m ≤ l) ∧
      (g.flood_fill pos).regions g.active_player (pos.1 + 1, pos.2 + 1) = m ∧
      (∀ p, g.regions g.active_player p ∈
          nbhdLabels (g.regions g.active_player) (pos.1 + 1) (pos.2 + 1) →
        (g.flood_fill pos).regions g.active_player p = m) ∧
      (L ≠ m → ∀ p, (g.flood_fill pos).regions g.active_player p ≠ L) := by
  obtain ⟨m, hm⟩ := listMin_isSome_of_mem hL
  refine ⟨m, hm, listMin_mem hm, listMin_le hm, ?_, ?_, ?_⟩
  · rw [HexGame.flood_fill_regions_self]
    unfold insertRegions
    rw [hm]
    simp
  · intro p hp
    rw [HexGame.flood_fill_regions_self]
    unfold insertRegions
    rw [hm]
    simp only
    by_cases hpt : p = (pos.1 + 1, pos.2 + 1)
    · rw [if_pos hpt]
    · rw [if_neg hpt]
      by_cases hpm : g.regions g.active_player p = m
      · rw [if_neg (by rw [hpm]; simp), hpm]
      · rw [if_pos ⟨hp, hpm⟩]
  · intro hLm p
    rw [HexGame.flood_fill_regions_self]
    unfold insertRegions
    rw [hm]
    simp only
    by_cases hpt : p = (pos.1 + 1, pos.2 + 1)
    · rw [if_pos hpt]
      omega
    · rw [if_neg hpt]
      by_cases hp : g.regions g.active_player p ∈
          nbhdLabels (g.regions g.active_player) (pos.1 + 1) (pos.2 + 1)
      · by_cases hpm : g.regions g.active_player p = m
        · rw [if_neg (by rw [hpm]; simp), hpm]
          omega
        · rw [if_pos ⟨hp, hpm⟩]
          omega
      · rw [if_neg (by intro hcon; exact hp hcon.1)]
        intro hcon
        exact hp (hcon ▸ hL)

theorem c3_merge_to_minimum_witness :
    ∃ m, listMin (nbhdLabels ((((HexGame.init 3 0).fast_move 4).fast_move 8).regions
        ((((HexGame.init 3 0).fast_move 4).fast_move 8)).active_player)
        (0 + 1) (1 + 1)) = some m ∧
      m ∈ nbhdLabels ((((HexGame.init 3 0).fast_move 4).fast_move 8).regions
          ((((HexGame.init 3 0).fast_move 4).fast_move 8)).active_player)
        (0 + 1) (1 + 1) ∧
      (∀ l ∈ nbhdLabels ((((HexGame.init 3 0).fast_move 4).fast_move 8).regions
          ((((HexGame.init 3 0).fast_move 4).fast_move 8)).active_player)
        (0 + 1) (1 + 1), m ≤ l) ∧
      ((((HexGame.init 3 0).fast_move 4).fast_move 8).flood_fill (0, 1)).regions
          ((((HexGame.init 3 0).fast_move 4).fast_move 8)).active_player (0 + 1, 1 + 1) = m ∧
      (∀ p, (((HexGame.init 3 0).fast_move 4).fast_move 8).regions
            ((((HexGame.init 3 0).fast_move 4).fast_move 8)).active_player p ∈
          nbhdLabels ((((HexGame.init 3 0).fast_move 4).fast_move 8).regions
            ((((HexGame.init 3 0).fast_move 4).fast_move 8)).active_player) (0 + 1) (1 + 1) →
        ((((HexGame.init 3 0).fast_move 4).fast_move 8).flood_fill (0, 1)).regions
            ((((HexGame.init 3 0).fast_move 4).fast_move 8)).active_player p = m) ∧
      (3 ≠ m → ∀ p, ((((HexGame.init 3 0).fast_move 4).fast_move 8).flood_fill (0, 1)).regions
          ((((HexGame.init 3 0).fast_move 4).fast_move 8)).active_player p ≠ 3) :=
  c3_merge_to_minimum (((HexGame.init 3 0).fast_move 4).fast_move 8) (0, 1)
    (by decide) 3 (by decide)

/-! ## Claim C8 -/

/-- C8 counterexample: `copy()` does not preserve the region counters.
After BLACK (1,1), WHITE (2,2), BLACK (0,1) on a 3x3 board, BLACK's
counter is 4 (label 3 was allocated, then merged away into label 1), but
the copy re-derives its counter from the grid maximum and gets 3. -/
theorem c8_counterexample :
    Reachable 3 gameB ∧
    gameB.copy.region_counter player.BLACK = 3 ∧
    gameB.region_counter player.BLACK = 4 ∧
    gameB.copy.region_counter player.BLACK ≠ gameB.region_counter player.BLACK :=
  ⟨reachable_gameB, by decide, by decide, by decide⟩

/-- C8 (amended): `copy()` returns a state whose board grid, region grids,
terminal flag, winner (and size and active colour) equal the source's,
while its region counters are recomputed as the grid's maximum label plus
one — which can differ from the source's counter.  Independence of the
copy is by deep copy in the source (`board.copy()`, `regions.copy()`);
in this pure-value model states never alias. -/
theorem c8_copy_fields (g : HexGame) :
    g.copy.board = g.board ∧ g.copy.regions = g.regions ∧
    g.copy.done = g.done ∧ g.copy.winner = g.winner ∧
    g.copy.board_size = g.board_size ∧ g.copy.active_player = g.active_player ∧
    (∀ c, g.copy.region_counter c = maxLabel g.board_size (g.regions c) + 1) :=
  ⟨rfl, rfl, rfl, rfl, rfl, rfl, fun _ => rfl⟩

/-! ## Claim C7 -/

theorem ediv_bounds {a : Int} {N : Nat} (hN : 1 ≤ N) :
    (N : Int) * (a / N) ≤ a ∧ a < (N : Int) * (a / N) + N := by
  have hpos : (0 : Int) < N := by exact_mod_cast hN
  have hkey : (N : Int) * (a / N) + a % N = a := Int.ediv_add_emod a N
  have h0 : 0 ≤ a % (N : Int) := Int.emod_nonneg a (by omega)
  have h1 : a % (N : Int) < N := Int.emod_lt_of_pos a hpos
  omega

theorem ediv_range {a : Int} {N : Nat} (hN : 1 ≤ N) :
    ((N : Int) * N ≤ a → (N : Int) ≤ a / N) ∧
    (a < (N : Int) * N → a / N < N) ∧
    (-((N : Int) * N) ≤ a → -(N : Int) ≤ a / N) ∧
    (a < -((N : Int) * N) → a / N < -(N : Int)) ∧
    (a < 0 → a / N < 0) ∧ (0 ≤ a → 0 ≤ a / (N : Int)) := by
  have hpos : (0 : Int) < N := by exact_mod_cast hN
  obtain ⟨hlow, hhigh⟩ := ediv_bounds (a := a) hN
  refine ⟨?_, ?_, ?_, ?_, ?_, fun h => Int.ediv_nonneg h (le_of_lt hpos)⟩
  · intro h
    have h3 : (N : Int) * N < N * (a / N + 1) := by
      rw [mul_add, mul_one]; omega
    have h4 := lt_of_mul_lt_mul_left h3 (le_of_lt hpos)
    omega
  · intro h
    have h2 : (N : Int) * (a / N) < N * N := lt_of_le_of_lt hlow h
    have h4 := lt_of_mul_lt_mul_left h2 (le_of_lt hpos)
    omega
  · intro h
    have h3 : (N : Int) * (-N) < N * (a / N + 1) := by
      rw [mul_add, mul_one, mul_neg]; omega
    have h4 := lt_of_mul_lt_mul_left h3 (le_of_lt hpos)
    omega
  · intro h
    have h3 : (N : Int) * (a / N) < N * (-N) := by
      rw [mul_neg]; omega
    have h4 := lt_of_mul_lt_mul_left h3 (le_of_lt hpos)
    omega
  · intro h
    have h3 : (N : Int) * (a / N) < N * 0 := by
      rw [mul_zero]; omega
    have h4 := lt_of_mul_lt_mul_left h3 (le_of_lt hpos)
    omega

/-- C7 counterexample: a negative action does not raise any error at the
validity check — numpy wraps the negative coordinate instead, returning
the emptiness of a real cell (row 2 on the fresh 3x3 board). -/
theorem c7_counterexample :
    (HexGame.init 3 0).is_valid_move_int (-1) = some true := by decide

/-- C7 (amended): actions at or above N*N, and actions below -N*N, make
the board lookup raise an index error; but actions in [-N*N, 0) raise
nothing — the row index wraps by +N and `is_valid_move` silently reports
the emptiness of that wrapped cell.  In-range actions behave normally. -/
theorem c7_action_range (g : HexGame) (a : Int) (hN : 1 ≤ g.board_size) :
    (((g.board_size : Int) * g.board_size ≤ a ∨ a < -((g.board_size : Int) * g.board_size)) →
      g.is_valid_move_int a = none) ∧
    (-((g.board_size : Int) * g.board_size) ≤ a → a < 0 →
      g.is_valid_move_int a =
        some (decide (g.board ((Int.fdiv a g.board_size + g.board_size).toNat,
          (a - g.board_size * Int.fdiv a g.board_size).toNat) = player.EMPTY))) ∧
    (0 ≤ a → a < (g.board_size : Int) * g.board_size →
      g.is_valid_move_int a =
        some (decide (g.board ((Int.fdiv a g.board_size).toNat,
          (a - g.board_size * Int.fdiv a g.board_size).toNat) = player.EMPTY))) := by
  set N := g.board_size with hNdef
  have hpos : (0 : Int) < N := by exact_mod_cast hN
  have hfd : Int.fdiv a N = a / N := Int.fdiv_eq_ediv a (le_of_lt hpos)
  obtain ⟨r1, r2, r3, r4, r5, r6⟩ := ediv_range (a := a) hN
  have hx : a - (N : Int) * Int.fdiv a N = a % N := by
    rw [hfd, Int.emod_def]
  have hx0 : 0 ≤ a % (N : Int) := Int.emod_nonneg a (by omega)
  have hx1 : a % (N : Int) < N := Int.emod_lt_of_pos a hpos
  have hxidx : npIndex N (a - (N : Int) * Int.fdiv a N) =
      some (a - (N : Int) * Int.fdiv a N).toNat := by
    unfold npIndex
    rw [if_pos (by rw [hx]; exact ⟨hx0, hx1⟩)]
  refine ⟨?_, ?_, ?_⟩
  · intro hout
    unfold HexGame.is_valid_move_int HexGame.action_to_coordinate_int
    have hy : npIndex N (Int.fdiv a N) = none := by
      unfold npIndex
      rw [hfd]
      rcases hout with hout | hout
      · have hq := r1 hout
        rw [if_neg (by omega), if_neg (by omega)]
      · have hq := r4 hout
        rw [if_neg (by omega), if_neg (by omega)]
    rw [hy]
  · intro hlo hhi
    unfold HexGame.is_valid_move_int HexGame.action_to_coordinate_int
    have hq1 := r3 hlo
    have hq2 := r5 hhi
    have hy : npIndex N (Int.fdiv a N) = some (Int.fdiv a N + N).toNat := by
      unfold npIndex
      rw [if_neg (by rw [hfd]; omega), if_pos (by rw [hfd]; omega)]
    rw [hy, hxidx]
  · intro hlo hhi
    unfold HexGame.is_valid_move_int HexGame.action_to_coordinate_int
    have hq1 := r6 hlo
    have hq2 := r2 hhi
    have hy : npIndex N (Int.fdiv a N) = some (Int.fdiv a N).toNat := by
      unfold npIndex
      rw [if_pos (by rw [hfd]; omega)]
    rw [hy, hxidx]

theorem c7_action_range_witness :
    (HexGame.init 3 0).is_valid_move_int 9 = none ∧
    (HexGame.init 3 0).is_valid_move_int (-9) =
      some (decide ((HexGame.init 3 0).board
        ((Int.fdiv (-9) (HexGame.init 3 0).board_size + (HexGame.init 3 0).board_size).toNat,
         ((-9) - (HexGame.init 3 0).board_size *
            Int.fdiv (-9) (HexGame.init 3 0).board_size).toNat) = player.EMPTY)) ∧
    (HexGame.init 3 0).is_valid_move_int 5 =
      some (decide ((HexGame.init 3 0).board
        ((Int.fdiv 5 (HexGame.init 3 0).board_size).toNat,
         (5 - (HexGame.init 3 0).board_size *
            Int.fdiv 5 (HexGame.init 3 0).board_size).toNat) = player.EMPTY)) :=
  ⟨(c7_action_range (HexGame.init 3 0) 9 (by decide)).1 (by decide),
   (c7_action_range (HexGame.init 3 0) (-9) (by decide)).2.1 (by decide) (by decide),
   (c7_action_range (HexGame.init 3 0) 5 (by decide)).2.2 (by decide) (by decide)⟩

/-! ## Claim C1: counterexample -/

theorem rtg_fixed {α : Type} {r : α → α → Prop} {a : α} (h : ∀ x, r a x → False) :
    ∀ b, Relation.ReflTransGen r a b → b = a := by
  intro b hb
  induction hb with
  | refl => rfl
  | tail hpre hstep ih => exact absurd (ih ▸ hstep) (h _)

/-- C1 counterexample: in the reachable 3x3 game BLACK (0,0), WHITE (2,2),
BLACK (0,2), the two black stones both carry the non-zero label 1 in
BLACK's region grid (both touch BLACK's near edge), yet they are not in
the same maximal group of black stones connected through hex adjacency —
(0,1) is empty and they are not adjacent. -/
theorem c1_counterexample :
    Reachable 3 gameA ∧
    gameA.board (0, 0) = player.BLACK ∧ gameA.board (0, 2) = player.BLACK ∧
    gameA.regions player.BLACK (0 + 1, 0 + 1) = 1 ∧
    gameA.regions player.BLACK (0 + 1, 2 + 1) = 1 ∧
    ¬ sameGroup 3 player.BLACK gameA.board (0, 0) (0, 2) := by
  refine ⟨reachable_gameA, by decide, by decide, by decide, by decide, ?_⟩
  rintro ⟨hin, hcol, hrtg⟩
  have hnostep : ∀ x, stoneStep 3 player.BLACK gameA.board (0, 0) x → False := by
    rintro ⟨xy, xx⟩ ⟨hadj, hin2, hcol2⟩
    have hxy : (xy = 1 ∧ xx = 0) ∨ (xy = 0 ∧ xx = 1) := by
      simp [hexAdj] at hadj
      omega
    rcases hxy with ⟨rfl, rfl⟩ | ⟨rfl, rfl⟩
    · exact absurd hcol2 (by decide)
    · exact absurd hcol2 (by decide)
  exact absurd (rtg_fixed hnostep _ hrtg) (by decide)

/-! ## Geometry of the padded grid -/

theorem hexAdj_symm {p q : Pos} (h : hexAdj p q) : hexAdj q p := by
  unfold hexAdj at h ⊢
  omega

theorem hexAdj_irrefl (p : Pos) : ¬ hexAdj p p := by
  unfold hexAdj
  omega

theorem hexAdj_delta {p q : Pos} (h : hexAdj p q) :
    p.1 ≤ q.1 + 1 ∧ q.1 ≤ p.1 + 1 ∧ p.2 ≤ q.2 + 1 ∧ q.2 ≤ p.2 + 1 := by
  unfold hexAdj at h
  omega

theorem hexAdj_shift {p q : Pos} :
    hexAdj p q ↔ hexAdj (p.1 + 1, p.2 + 1) (q.1 + 1, q.2 + 1) := by
  unfold hexAdj
  omega

theorem ax_delta {c : Nat} (hc : c = 0 ∨ c = 1) {p q : Pos} (h : hexAdj p q) :
    ax c p ≤ ax c q + 1 ∧ ax c q ≤ ax c p + 1 := by
  have hd := hexAdj_delta h
  rcases hc with rfl | rfl <;> simp [ax, player.WHITE] <;> omega

theorem ax_mkp {c : Nat} (hc : c = 0 ∨ c = 1) (a o : Nat) : ax c (mkp c a o) = a := by
  rcases hc with rfl | rfl <;> simp [ax, mkp, player.WHITE]

theorem ox_mkp {c : Nat} (hc : c = 0 ∨ c = 1) (a o : Nat) : ox c (mkp c a o) = o := by
  rcases hc with rfl | rfl <;> simp [ox, mkp, player.WHITE]

theorem mkp_ax_ox {c : Nat} (hc : c = 0 ∨ c = 1) (p : Pos) :
    mkp c (ax c p) (ox c p) = p := by
  rcases hc with rfl | rfl <;> simp [ax, ox, mkp, player.WHITE]

theorem inPad_ax_ox {c : Nat} (hc : c = 0 ∨ c = 1) {N : Nat} {p : Pos} :
    inPad N p ↔ ax c p ≤ N + 1 ∧ ox c p ≤ N + 1 := by
  rcases hc with rfl | rfl <;> simp [inPad, ax, ox, player.WHITE] <;> tauto

theorem realCell_ax_ox {c : Nat} (hc : c = 0 ∨ c = 1) {N : Nat} {p : Pos} :
    realCell N p ↔ 1 ≤ ax c p ∧ ax c p ≤ N ∧ 1 ≤ ox c p ∧ ox c p ≤ N := by
  rcases hc with rfl | rfl <;> simp [realCell, ax, ox, player.WHITE] <;> tauto

theorem hexAdj_mkp_ox {c : Nat} (hc : c = 0 ∨ c = 1) (k o : Nat) :
    hexAdj (mkp c k o) (mkp c k (o + 1)) := by
  rcases hc with rfl | rfl <;> simp [mkp, hexAdj, player.WHITE]

theorem hexAdj_mkp_ax {c : Nat} (hc : c = 0 ∨ c = 1) (k o : Nat) :
    hexAdj (mkp c k o) (mkp c (k + 1) o) := by
  rcases hc with rfl | rfl <;> simp [mkp, hexAdj, player.WHITE]

theorem hexAdj_mkp_diag {c : Nat} (hc : c = 0 ∨ c = 1) (k o : Nat) :
    hexAdj (mkp c k (o + 1)) (mkp c (k + 1) o) := by
  rcases hc with rfl | rfl <;> simp [mkp, hexAdj, player.WHITE]

theorem vstone_inPad {N c : Nat} {b : Pos → Nat} {p : Pos} (h : vstone N c b p) :
    inPad N p := by
  rcases h with h | h
  · exact h.1
  · rcases h.1 with ⟨h1, h2, h3, h4⟩
    exact ⟨by omega, by omega⟩

theorem realCell_not_border {N c : Nat} (hc : c = 0 ∨ c = 1) {p : Pos}
    (h : realCell N p) : ¬ isBorder N c p := by
  rintro ⟨hpad, hax⟩
  rcases (realCell_ax_ox hc).1 h with ⟨h1, h2, _, _⟩
  omega

theorem isBorder_of_ax {N c : Nat} {p : Pos} (hpad : inPad N p)
    (hax : ax c p = 0 ∨ ax c p = N + 1) : isBorder N c p := ⟨hpad, hax⟩

/-! ## Padded connectivity: generic path lemmas -/

theorem rtg_vstone {N c : Nat} {b : Pos → Nat} {p r : Pos}
    (hp : vstone N c b p) (h : Relation.ReflTransGen (gstep N c b) p r) :
    vstone N c b r := by
  induction h with
  | refl => exact hp
  | tail hpre hstep ih => exact hstep.2

theorem rtg_gstep_symm {N c : Nat} {b : Pos → Nat} {p q : Pos}
    (hp : vstone N c b p) (h : Relation.ReflTransGen (gstep N c b) p q) :
    Relation.ReflTransGen (gstep N c b) q p := by
  induction h with
  | refl => exact Relation.ReflTransGen.refl
  | tail hpre hstep ih =>
    exact Relation.ReflTransGen.head ⟨hexAdj_symm hstep.1, rtg_vstone hp hpre⟩ ih

theorem rtg_gstep_congr {N c : Nat} {b b' : Pos → Nat}
    (hb : ∀ q, vstone N c b q ↔ vstone N c b' q) {p q : Pos} :
    Relation.ReflTransGen (gstep N c b) p q ↔
      Relation.ReflTransGen (gstep N c b') p q := by
  constructor
  · exact Relation.ReflTransGen.mono fun x y hxy => ⟨hxy.1, (hb y).1 hxy.2⟩
  · exact Relation.ReflTransGen.mono fun x y hxy => ⟨hxy.1, (hb y).2 hxy.2⟩

/-- Walking up one of a colour's border lines. -/
theorem border_walk_up {N c : Nat} {b : Pos → Nat} (hc : c = 0 ∨ c = 1)
    (hk : k = 0 ∨ k = N + 1) :
    ∀ d o, o + d ≤ N + 1 →
      Relation.ReflTransGen (gstep N c b) (mkp c k o) (mkp c k (o + d)) := by
  intro d
  induction d with
  | zero => intro o _; exact Relation.ReflTransGen.refl
  | succ n ih =>
    intro o hle
    have h1 := ih o (by omega)
    refine h1.tail ⟨?_, ?_⟩
    · exact hexAdj_mkp_ox hc k (o + n)
    · left
      refine ⟨?_, ?_⟩
      · rw [inPad_ax_ox hc, ax_mkp hc, ox_mkp hc]
        omega
      · rw [ax_mkp hc]
        exact hk

/-- Any two cells of the same border line of a colour are connected. -/
theorem border_line_conn {N c : Nat} {b : Pos → Nat} (hc : c = 0 ∨ c = 1)
    {p q : Pos} (hk : ax c p = 0 ∨ ax c p = N + 1) (heq : ax c p = ax c q)
    (hp : inPad N p) (hq : inPad N q) :
    Relation.ReflTransGen (gstep N c b) p q := by
  have hpo := (inPad_ax_ox hc).1 hp
  have hqo := (inPad_ax_ox hc).1 hq
  rcases le_total (ox c p) (ox c q) with hle | hle
  · have := border_walk_up (b := b) hc hk (ox c q - ox c p) (ox c p) (by omega)
    rw [show ox c p + (ox c q - ox c p) = ox c q by omega] at this
    rw [← mkp_ax_ox hc p, ← mkp_ax_ox hc q, ← heq]
    exact this
  · have h1 := border_walk_up (b := b) hc hk (ox c p - ox c q) (ox c q) (by omega)
    rw [show ox c q + (ox c p - ox c q) = ox c p by omega] at h1
    have hvs : vstone N c b (mkp c (ax c p) (ox c q)) := by
      left
      refine ⟨?_, ?_⟩
      · rw [inPad_ax_ox hc, ax_mkp hc, ox_mkp hc]
        omega
      · rw [ax_mkp hc]
        exact hk
    have h2 := rtg_gstep_symm hvs h1
    rw [← mkp_ax_ox hc p, ← mkp_ax_ox hc q, ← heq]
    exact h2

/-! ## The flood-fill window as hex neighbourhood -/

theorem mem_window_iff {y x qy qx : Nat} (hy : 1 ≤ y) (hx : 1 ≤ x) :
    ((qy, qx) ∈ window y x) ↔ (hexAdj (y, x) (qy, qx) ∨ (qy, qx) = (y, x)) := by
  simp [window, hexAdj, Prod.ext_iff]
  omega

theorem mem_nbhdLabels_adj {R : Pos → Nat} {y x : Nat} (hy : 1 ≤ y) (hx : 1 ≤ x)
    (h0 : R (y, x) = 0) {l : Nat} :
    l ∈ nbhdLabels R y x ↔ l ≠ 0 ∧ ∃ u, hexAdj (y, x) u ∧ R u = l := by
  rw [mem_nbhdLabels]
  constructor
  · rintro ⟨⟨⟨uy, ux⟩, hu, rfl⟩, hne⟩
    rcases (mem_window_iff hy hx).1 hu with hadj | heq
    · exact ⟨hne, ⟨(uy, ux), hadj, rfl⟩⟩
    · rw [heq] at hne ⊢
      exact absurd h0 hne
  · rintro ⟨hne, ⟨⟨uy, ux⟩, hadj, rfl⟩⟩
    exact ⟨⟨(uy, ux), (mem_window_iff hy hx).2 (Or.inl hadj), rfl⟩, hne⟩

theorem hexAdj_inPad_of_real {N : Nat} {t u : Pos} (ht : realCell N t)
    (h : hexAdj t u) : inPad N u := by
  have hd := hexAdj_delta h
  rcases ht with ⟨h1, h2, h3, h4⟩
  exact ⟨by omega, by omega⟩

theorem realCell_shift {N : Nat} {pos : Pos} (hy : pos.1 < N) (hx : pos.2 < N) :
    realCell N (pos.1 + 1, pos.2 + 1) := ⟨by omega, by omega, by omega, by omega⟩

theorem rawOf_real_eq {N : Nat} {p : Pos} (hp : realCell N p) {pos : Pos} :
    rawOf p = pos ↔ p = (pos.1 + 1, pos.2 + 1) := by
  rcases hp with ⟨h1, h2, h3, h4⟩
  unfold rawOf
  rw [Prod.ext_iff, Prod.ext_iff]
  simp only
  omega

/-! ## Virtual stones under a board update -/

theorem vstone_place_other {N c c0 : Nat} {b : Pos → Nat} {pos : Pos}
    (hold : b pos = player.EMPTY) (hne : c ≠ c0) (hce : c ≠ player.EMPTY) (p : Pos) :
    vstone N c (fun q => if q = pos then c0 else b q) p ↔ vstone N c b p := by
  unfold vstone
  constructor
  · rintro (hb | ⟨hr, hs⟩)
    · exact Or.inl hb
    · right
      refine ⟨hr, ?_⟩
      by_cases hq : rawOf p = pos
      · exfalso
        have hcc : c0 = c := by simpa [hq] using hs
        exact hne hcc.symm
      · simpa [hq] using hs
  · rintro (hb | ⟨hr, hs⟩)
    · exact Or.inl hb
    · right
      refine ⟨hr, ?_⟩
      by_cases hq : rawOf p = pos
      · exfalso
        rw [hq, hold] at hs
        exact hce hs.symm
      · simpa [hq] using hs

theorem rawOf_real_eq2 {N : Nat} {p : Pos} (hp : realCell N p) {y x : Nat}
    (hy1 : 1 ≤ y) (hx1 : 1 ≤ x) :
    rawOf p = (y - 1, x - 1) ↔ p = (y, x) := by
  rcases hp with ⟨h1, h2, h3, h4⟩
  unfold rawOf
  rw [Prod.ext_iff, Prod.ext_iff]
  simp only
  omega

theorem vstone_place_ne {N c : Nat} {b : Pos → Nat} {y x : Nat}
    (hy1 : 1 ≤ y) (hx1 : 1 ≤ x) {p : Pos} (hp : p ≠ (y, x)) :
    vstone N c (fun q => if q = (y - 1, x - 1) then c else b q) p ↔ vstone N c b p := by
  unfold vstone
  constructor
  · rintro (hb | ⟨hr, hs⟩)
    · exact Or.inl hb
    · right
      refine ⟨hr, ?_⟩
      have hq : rawOf p ≠ (y - 1, x - 1) := fun hcon => hp ((rawOf_real_eq2 hr hy1 hx1).1 hcon)
      simpa [hq] using hs
  · rintro (hb | ⟨hr, hs⟩)
    · exact Or.inl hb
    · right
      refine ⟨hr, ?_⟩
      have hq : rawOf p ≠ (y - 1, x - 1) := fun hcon => hp ((rawOf_real_eq2 hr hy1 hx1).1 hcon)
      simpa [hq] using hs

theorem vstone_place_mono {N c : Nat} {b : Pos → Nat} {pos : Pos}
    (he : b pos = player.EMPTY) (hce : c ≠ player.EMPTY) {p : Pos}
    (h : vstone N c b p) :
    vstone N c (fun q => if q = pos then c else b q) p := by
  rcases h with hb | ⟨hr, hs⟩
  · exact Or.inl hb
  · right
    refine ⟨hr, ?_⟩
    by_cases hq : rawOf p = pos
    · exfalso
      rw [hq, he] at hs
      exact hce hs.symm
    · simpa [hq] using hs

theorem vstone_place_t {N c : Nat} {b : Pos → Nat} {y x : Nat}
    (hy1 : 1 ≤ y) (hyN : y ≤ N) (hx1 : 1 ≤ x) (hxN : x ≤ N) :
    vstone N c (fun q => if q = (y - 1, x - 1) then c else b q) (y, x) := by
  right
  refine ⟨⟨hy1, hyN, hx1, hxN⟩, ?_⟩
  have hraw : rawOf ((y : Nat), x) = (y - 1, x - 1) := rfl
  simp [hraw]

theorem not_vstone_empty_t {N c : Nat} (hc : c = 0 ∨ c = 1) {b : Pos → Nat} {y x : Nat}
    (hy1 : 1 ≤ y) (hyN : y ≤ N) (hx1 : 1 ≤ x) (hxN : x ≤ N)
    (he : b (y - 1, x - 1) = player.EMPTY) :
    ¬ vstone N c b (y, x) := by
  rintro (hb | ⟨hr, hs⟩)
  · exact realCell_not_border hc ⟨hy1, hyN, hx1, hxN⟩ hb
  · have hraw : rawOf ((y : Nat), x) = (y - 1, x - 1) := rfl
    rw [hraw, he] at hs
    rcases hc with rfl | rfl <;> simp [player.EMPTY] at hs

theorem insertRegions_none {R : Pos → Nat} {cnt y x : Nat}
    (h : listMin (nbhdLabels R y x) = none) :
    insertRegions R cnt y x = (fun p => if p = (y, x) then cnt else R p, cnt + 1) := by
  unfold insertRegions
  rw [h]

theorem insertRegions_some {R : Pos → Nat} {cnt y x m : Nat}
    (h : listMin (nbhdLabels R y x) = some m) :
    insertRegions R cnt y x =
      (fun p =>
        if p = (y, x) then m
        else if R p ∈ nbhdLabels R y x ∧ R p ≠ m then m else R p, cnt) := by
  unfold insertRegions
  rw [h]

theorem rtg_gstep_mono {N c : Nat} {b b2 : Pos → Nat}
    (hb : ∀ p, vstone N c b p → vstone N c b2 p) {p q : Pos}
    (h : Relation.ReflTransGen (gstep N c b) p q) :
    Relation.ReflTransGen (gstep N c b2) p q :=
  Relation.ReflTransGen.mono (fun a2 b3 hab => ⟨hab.1, hb _ hab.2⟩) h

/-! ## Preservation of the region invariant: fresh-label branch -/

theorem regionInv_insert_fresh {N c : Nat} {b R : Pos → Nat} {cnt : Nat}
    (hc : c = 0 ∨ c = 1) {y x : Nat}
    (hy1 : 1 ≤ y) (hyN : y ≤ N) (hx1 : 1 ≤ x) (hxN : x ≤ N)
    (he : b (y - 1, x - 1) = player.EMPTY) (inv : RegionInv N b R cnt c)
    (hmin : listMin (nbhdLabels R y x) = none) :
    RegionInv N (fun q => if q = (y - 1, x - 1) then c else b q)
      (fun p => if p = (y, x) then cnt else R p) (cnt + 1) c := by
  have hce : c ≠ player.EMPTY := by rcases hc with rfl | rfl <;> simp [player.EMPTY]
  have htreal : realCell N ((y : Nat), x) := ⟨hy1, hyN, hx1, hxN⟩
  have htpad : inPad N ((y : Nat), x) := ⟨by simp; omega, by simp; omega⟩
  have htnvs : ¬ vstone N c b (y, x) := not_vstone_empty_t hc hy1 hyN hx1 hxN he
  have hRt : R (y, x) = 0 := by
    by_contra h0
    exact htnvs ((inv.dom (y, x) htpad).1 h0)
  have hnil : nbhdLabels R y x = [] := (listMin_eq_none_iff _).1 hmin
  have hnonbr : ∀ u, hexAdj (y, x) u → ¬ vstone N c b u := by
    intro u hadj hvs
    have hupad : inPad N u := hexAdj_inPad_of_real htreal hadj
    have hR : R u ≠ 0 := (inv.dom u hupad).2 hvs
    have hmem : R u ∈ nbhdLabels R y x :=
      (mem_nbhdLabels_adj hy1 hx1 hRt).2 ⟨hR, ⟨u, hadj, rfl⟩⟩
    rw [hnil] at hmem
    simp at hmem
  -- paths in the new graph starting at an old virtual stone never reach (y, x)
  have hisoA : ∀ p r, vstone N c b p →
      Relation.ReflTransGen (gstep N c (fun q => if q = (y - 1, x - 1) then c else b q)) p r →
      vstone N c b r ∧ Relation.ReflTransGen (gstep N c b) p r := by
    intro p r hp hpr
    induction hpr with
    | refl => exact ⟨hp, Relation.ReflTransGen.refl⟩
    | tail hpre hstep ih =>
      obtain ⟨hvmid, hrtg⟩ := ih
      obtain ⟨hadj, hvs'⟩ := hstep
      rename_i mid r'
      by_cases hr' : r' = (y, x)
      · subst hr'
        exact absurd hvmid (hnonbr mid (hexAdj_symm hadj))
      · have hvr' : vstone N c b r' := (vstone_place_ne hy1 hx1 hr').1 hvs'
        exact ⟨hvr', hrtg.tail ⟨hadj, hvr'⟩⟩
  have hisoT : ∀ r,
      Relation.ReflTransGen (gstep N c (fun q => if q = (y - 1, x - 1) then c else b q))
        (y, x) r → r = ((y : Nat), x) := by
    intro r hr
    refine rtg_fixed ?_ r hr
    rintro u ⟨hadj, hvs'⟩
    by_cases hu : u = ((y : Nat), x)
    · subst hu
      exact hexAdj_irrefl _ hadj
    · exact hnonbr u hadj ((vstone_place_ne hy1 hx1 hu).1 hvs')
  refine ⟨?_, ?_, ?_, ?_, ?_, by have h3 := inv.cnt3; omega, ?_⟩
  · -- dom
    intro p hp
    by_cases hpt : p = ((y : Nat), x)
    · subst hpt
      rw [if_pos rfl]
      have h3 := inv.cnt3
      constructor
      · intro _
        exact vstone_place_t hy1 hyN hx1 hxN
      · intro _
        omega
    · rw [if_neg hpt, vstone_place_ne hy1 hx1 hpt]
      exact inv.dom p hp
  · -- outside
    intro p hp
    have hpt : p ≠ ((y : Nat), x) := fun hcon => hp (hcon ▸ htpad)
    rw [if_neg hpt]
    exact inv.outside p hp
  · -- comp
    intro p q hppad hqpad hvp hvq
    by_cases hpt : p = ((y : Nat), x) <;> by_cases hqt : q = ((y : Nat), x)
    · subst hpt
      subst hqt
      simp only [if_pos rfl]
      constructor
      · intro _
        exact Relation.ReflTransGen.refl
      · intro _
        trivial
    · subst hpt
      rw [if_pos rfl, if_neg hqt]
      have hvbq : vstone N c b q := (vstone_place_ne hy1 hx1 hqt).1 hvq
      constructor
      · intro hcon
        exact absurd hcon.symm (Nat.ne_of_lt (inv.cnt_gt q hqpad))
      · intro hcon
        exact absurd (hisoT q hcon) hqt
    · subst hqt
      rw [if_pos rfl, if_neg hpt]
      have hvbp : vstone N c b p := (vstone_place_ne hy1 hx1 hpt).1 hvp
      constructor
      · intro hcon
        exact absurd hcon (Nat.ne_of_lt (inv.cnt_gt p hppad))
      · intro hcon
        exact absurd (hisoA p (y, x) hvbp hcon).1 htnvs
    · rw [if_neg hpt, if_neg hqt]
      have hvbp : vstone N c b p := (vstone_place_ne hy1 hx1 hpt).1 hvp
      have hvbq : vstone N c b q := (vstone_place_ne hy1 hx1 hqt).1 hvq
      rw [inv.comp p q hppad hqpad hvbp hvbq]
      constructor
      · intro hcon
        exact Relation.ReflTransGen.mono
          (fun u v huv => ⟨huv.1, vstone_place_mono he hce huv.2⟩) hcon
      · intro hcon
        exact (hisoA p q hvbp hcon).2
  · -- near1
    intro p hb hax
    have hpt : p ≠ ((y : Nat), x) := by
      intro hcon
      exact realCell_not_border hc htreal (hcon ▸ hb)
    rw [if_neg hpt]
    exact inv.near1 p hb hax
  · -- cnt_gt
    intro p hp
    by_cases hpt : p = ((y : Nat), x)
    · rw [if_pos hpt]
      omega
    · rw [if_neg hpt]
      have := inv.cnt_gt p hp
      omega
  · -- corner12
    have hpt : ((N + 1 : Nat), (N + 1 : Nat)) ≠ ((y : Nat), x) := by
      intro hcon
      rw [Prod.ext_iff] at hcon
      simp only at hcon
      omega
    rw [if_neg hpt]
    exact inv.corner12

/-! ## Preservation of the region invariant: merge branch -/

theorem regionInv_insert_merge {N c : Nat} {b R : Pos → Nat} {cnt : Nat}
    (hc : c = 0 ∨ c = 1) {y x : Nat}
    (hy1 : 1 ≤ y) (hyN : y ≤ N) (hx1 : 1 ≤ x) (hxN : x ≤ N)
    (he : b (y - 1, x - 1) = player.EMPTY) (inv : RegionInv N b R cnt c)
    {m : Nat} (hmin : listMin (nbhdLabels R y x) = some m) :
    RegionInv N (fun q => if q = (y - 1, x - 1) then c else b q)
      (fun p =>
        if p = (y, x) then m
        else if R p ∈ nbhdLabels R y x ∧ R p ≠ m then m else R p) cnt c := by
  have hce : c ≠ player.EMPTY := by rcases hc with rfl | rfl <;> simp [player.EMPTY]
  have htreal : realCell N ((y : Nat), x) := ⟨hy1, hyN, hx1, hxN⟩
  have htpad : inPad N ((y : Nat), x) := ⟨by simp; omega, by simp; omega⟩
  have htnvs : ¬ vstone N c b (y, x) := not_vstone_empty_t hc hy1 hyN hx1 hxN he
  have hRt : R (y, x) = 0 := by
    by_contra h0
    exact htnvs ((inv.dom (y, x) htpad).1 h0)
  have hmem : m ∈ nbhdLabels R y x := listMin_mem hmin
  have hmle : ∀ l ∈ nbhdLabels R y x, m ≤ l := listMin_le hmin
  have hLs0 : ∀ l ∈ nbhdLabels R y x, l ≠ 0 := fun l hl => (mem_nbhdLabels.1 hl).2
  have hm0 : m ≠ 0 := hLs0 m hmem
  have hlab_iff : ∀ l, l ∈ nbhdLabels R y x ↔ l ≠ 0 ∧ ∃ u, hexAdj (y, x) u ∧ R u = l :=
    fun l => mem_nbhdLabels_adj hy1 hx1 hRt
  have hlab_vs : ∀ l, l ∈ nbhdLabels R y x →
      ∃ u, hexAdj (y, x) u ∧ vstone N c b u ∧ R u = l := by
    intro l hl
    obtain ⟨h0, u, hadj, hRu⟩ := (hlab_iff l).1 hl
    have hupad := hexAdj_inPad_of_real htreal hadj
    exact ⟨u, hadj, (inv.dom u hupad).1 (by rw [hRu]; exact h0), hRu⟩
  have hmlt : m < cnt := by
    obtain ⟨u, hadj, hvsu, hRu⟩ := hlab_vs m hmem
    have hupad := hexAdj_inPad_of_real htreal hadj
    have := inv.cnt_gt u hupad
    omega
  have hA : ∀ p, inPad N p → vstone N c b p →
      (R p ∈ nbhdLabels R y x ↔ connToNbr N c b (y, x) p) := by
    intro p hpad hvs
    constructor
    · intro hl
      obtain ⟨u, hadj, hvsu, hRu⟩ := hlab_vs _ hl
      have hupad := hexAdj_inPad_of_real htreal hadj
      exact ⟨u, hadj, hvsu, (inv.comp p u hpad hupad hvs hvsu).1 hRu.symm⟩
    · rintro ⟨u, hadj, hvsu, hrtg⟩
      have hupad := hexAdj_inPad_of_real htreal hadj
      have heq : R p = R u := (inv.comp p u hpad hupad hvs hvsu).2 hrtg
      rw [heq]
      exact (hlab_iff _).2 ⟨(inv.dom u hupad).2 hvsu, u, hadj, rfl⟩
  have hvs'mono : ∀ p, vstone N c b p →
      vstone N c (fun q => if q = (y - 1, x - 1) then c else b q) p :=
    fun p => vstone_place_mono he hce
  have hvs't : vstone N c (fun q => if q = (y - 1, x - 1) then c else b q) (y, x) :=
    vstone_place_t hy1 hyN hx1 hxN
  have hB1 : ∀ r,
      Relation.ReflTransGen (gstep N c (fun q => if q = (y - 1, x - 1) then c else b q))
        (y, x) r →
      r = ((y : Nat), x) ∨ (vstone N c b r ∧ connToNbr N c b (y, x) r) := by
    intro r hr
    induction hr with
    | refl => exact Or.inl rfl
    | tail hpre hstep ih =>
      rename_i mid r'
      obtain ⟨hadj, hvs'⟩ := hstep
      by_cases hr' : r' = ((y : Nat), x)
      · exact Or.inl hr'
      · right
        have hvr' : vstone N c b r' := (vstone_place_ne hy1 hx1 hr').1 hvs'
        refine ⟨hvr', ?_⟩
        rcases ih with rfl | ⟨hvmid, u, hadju, hvsu, hrtgu⟩
        · exact ⟨r', hadj, hvr', Relation.ReflTransGen.refl⟩
        · exact ⟨u, hadju, hvsu,
            Relation.ReflTransGen.head ⟨hexAdj_symm hadj, hvmid⟩ hrtgu⟩
  have hB2 : ∀ p r, vstone N c b p →
      Relation.ReflTransGen (gstep N c (fun q => if q = (y - 1, x - 1) then c else b q))
        p r →
      (vstone N c b r ∧ Relation.ReflTransGen (gstep N c b) p r) ∨
      (connToNbr N c b (y, x) p ∧
        (r = ((y : Nat), x) ∨ (vstone N c b r ∧ connToNbr N c b (y, x) r))) := by
    intro p r hp hpr
    induction hpr with
    | refl => exact Or.inl ⟨hp, Relation.ReflTransGen.refl⟩
    | tail hpre hstep ih =>
      rename_i mid r'
      obtain ⟨hadj, hvs'⟩ := hstep
      rcases ih with ⟨hvmid, hrtg⟩ | ⟨hSp, hmid⟩
      · by_cases hr' : r' = ((y : Nat), x)
        · subst hr'
          exact Or.inr ⟨⟨mid, hexAdj_symm hadj, hvmid, hrtg⟩, Or.inl rfl⟩
        · left
          have hvr' := (vstone_place_ne hy1 hx1 hr').1 hvs'
          exact ⟨hvr', hrtg.tail ⟨hadj, hvr'⟩⟩
      · right
        refine ⟨hSp, ?_⟩
        by_cases hr' : r' = ((y : Nat), x)
        · exact Or.inl hr'
        · right
          have hvr' := (vstone_place_ne hy1 hx1 hr').1 hvs'
          refine ⟨hvr', ?_⟩
          rcases hmid with rfl | ⟨hvmid, u, hadju, hvsu, hrtgu⟩
          · exact ⟨r', hadj, hvr', Relation.ReflTransGen.refl⟩
          · exact ⟨u, hadju, hvsu,
              Relation.ReflTransGen.head ⟨hexAdj_symm hadj, hvmid⟩ hrtgu⟩
  have hL1 : ∀ q, vstone N c b q → connToNbr N c b (y, x) q →
      Relation.ReflTransGen (gstep N c (fun q2 => if q2 = (y - 1, x - 1) then c else b q2))
        q (y, x) := by
    rintro q hvq ⟨u, hadj, hvsu, hrtg⟩
    have h1 := rtg_gstep_mono hvs'mono hrtg
    exact h1.tail ⟨hexAdj_symm hadj, hvs't⟩
  have hL2 : ∀ q, vstone N c b q → connToNbr N c b (y, x) q →
      Relation.ReflTransGen (gstep N c (fun q2 => if q2 = (y - 1, x - 1) then c else b q2))
        (y, x) q := by
    rintro q hvq ⟨u, hadj, hvsu, hrtg⟩
    have hback := rtg_gstep_symm hvq hrtg
    have h1 := rtg_gstep_mono hvs'mono hback
    exact Relation.ReflTransGen.head ⟨hadj, hvs'mono _ hvsu⟩ h1
  have hconn't : ∀ q, vstone N c b q →
      (vconn N c (fun q2 => if q2 = (y - 1, x - 1) then c else b q2) (y, x) q ↔
        connToNbr N c b (y, x) q) := by
    intro q hvq
    constructor
    · intro h
      rcases hB1 q h with rfl | ⟨_, hS⟩
      · exact absurd hvq htnvs
      · exact hS
    · exact hL2 q hvq
  have hconnt' : ∀ q, vstone N c b q →
      (vconn N c (fun q2 => if q2 = (y - 1, x - 1) then c else b q2) q (y, x) ↔
        connToNbr N c b (y, x) q) := by
    intro q hvq
    constructor
    · intro h
      rcases hB2 q (y, x) hvq h with ⟨hvt, _⟩ | ⟨hS, _⟩
      · exact absurd hvt htnvs
      · exact hS
    · exact hL1 q hvq
  have hconn' : ∀ p q, vstone N c b p → vstone N c b q →
      (vconn N c (fun q2 => if q2 = (y - 1, x - 1) then c else b q2) p q ↔
        (Relation.ReflTransGen (gstep N c b) p q ∨
          (connToNbr N c b (y, x) p ∧ connToNbr N c b (y, x) q))) := by
    intro p q hvp hvq
    constructor
    · intro h
      rcases hB2 p q hvp h with ⟨_, h2⟩ | ⟨hSp, hq2⟩
      · exact Or.inl h2
      · rcases hq2 with rfl | ⟨_, hSq⟩
        · exact absurd hvq htnvs
        · exact Or.inr ⟨hSp, hSq⟩
    · rintro (h | ⟨hSp, hSq⟩)
      · exact rtg_gstep_mono hvs'mono h
      · exact (hL1 p hvp hSp).trans (hL2 q hvq hSq)
  have hR'm_iff : ∀ p, ((if R p ∈ nbhdLabels R y x ∧ R p ≠ m then m else R p) = m ↔
      R p ∈ nbhdLabels R y x) := by
    intro p
    by_cases h1 : R p ∈ nbhdLabels R y x ∧ R p ≠ m
    · rw [if_pos h1]
      exact iff_of_true rfl h1.1
    · rw [if_neg h1]
      push_neg at h1
      constructor
      · intro h2
        rw [h2]
        exact hmem
      · intro h2
        exact h1 h2
  refine ⟨?_, ?_, ?_, ?_, ?_, inv.cnt3, ?_⟩
  · -- dom
    intro p hp
    by_cases hpt : p = ((y : Nat), x)
    · subst hpt
      rw [if_pos rfl]
      exact iff_of_true hm0 hvs't
    · rw [if_neg hpt, vstone_place_ne hy1 hx1 hpt]
      constructor
      · intro h0
        by_cases h1 : R p ∈ nbhdLabels R y x ∧ R p ≠ m
        · exact (inv.dom p hp).1 (by
            intro hcon
            exact hLs0 _ h1.1 (hcon ▸ rfl))
        · rw [if_neg h1] at h0
          exact (inv.dom p hp).1 h0
      · intro hvs
        have h0 : R p ≠ 0 := (inv.dom p hp).2 hvs
        by_cases h1 : R p ∈ nbhdLabels R y x ∧ R p ≠ m
        · rw [if_pos h1]
          exact hm0
        · rw [if_neg h1]
          exact h0
  · -- outside
    intro p hp
    have hpt : p ≠ ((y : Nat), x) := fun hcon => hp (hcon ▸ htpad)
    rw [if_neg hpt]
    have h0 : R p = 0 := inv.outside p hp
    rw [if_neg (by
      rintro ⟨hin, _⟩
      rw [h0] at hin
      exact hLs0 0 hin rfl)]
    exact h0
  · -- comp
    intro p q hppad hqpad hvp' hvq'
    by_cases hpt : p = ((y : Nat), x) <;> by_cases hqt : q = ((y : Nat), x)
    · subst hpt
      subst hqt
      simp only [if_pos rfl]
      constructor
      · intro _
        exact Relation.ReflTransGen.refl
      · intro _
        trivial
    · subst hpt
      rw [if_pos rfl, if_neg hqt]
      have hvq : vstone N c b q := (vstone_place_ne hy1 hx1 hqt).1 hvq'
      rw [eq_comm, hR'm_iff q, hA q hqpad hvq]
      exact (hconn't q hvq).symm
    · subst hqt
      rw [if_pos rfl, if_neg hpt]
      have hvp : vstone N c b p := (vstone_place_ne hy1 hx1 hpt).1 hvp'
      rw [hR'm_iff p, hA p hppad hvp]
      exact (hconnt' p hvp).symm
    · rw [if_neg hpt, if_neg hqt]
      have hvp : vstone N c b p := (vstone_place_ne hy1 hx1 hpt).1 hvp'
      have hvq : vstone N c b q := (vstone_place_ne hy1 hx1 hqt).1 hvq'
      rw [hconn' p q hvp hvq]
      by_cases h1 : R p ∈ nbhdLabels R y x <;> by_cases h2 : R q ∈ nbhdLabels R y x
      · rw [(hR'm_iff p).2 h1, (hR'm_iff q).2 h2]
        exact iff_of_true rfl
          (Or.inr ⟨(hA p hppad hvp).1 h1, (hA q hqpad hvq).1 h2⟩)
      · rw [(hR'm_iff p).2 h1]
        apply iff_of_false
        · intro hcon
          exact h2 ((hR'm_iff q).1 hcon.symm)
        · rintro (hcon | ⟨hSp, hSq⟩)
          · have heq := (inv.comp p q hppad hqpad hvp hvq).2 hcon
            exact h2 (heq ▸ h1)
          · exact h2 ((hA q hqpad hvq).2 hSq)
      · rw [(hR'm_iff q).2 h2]
        apply iff_of_false
        · intro hcon
          exact h1 ((hR'm_iff p).1 hcon)
        · rintro (hcon | ⟨hSp, hSq⟩)
          · have heq := (inv.comp p q hppad hqpad hvp hvq).2 hcon
            exact h1 (heq ▸ h2)
          · exact h1 ((hA p hppad hvp).2 hSp)
      · have e1 : (if R p ∈ nbhdLabels R y x ∧ R p ≠ m then m else R p) = R p :=
          if_neg (fun hcon => h1 hcon.1)
        have e2 : (if R q ∈ nbhdLabels R y x ∧ R q ≠ m then m else R q) = R q :=
          if_neg (fun hcon => h2 hcon.1)
        rw [e1, e2, inv.comp p q hppad hqpad hvp hvq]
        constructor
        · intro h
          exact Or.inl h
        · rintro (h | ⟨hSp, _⟩)
          · exact h
          · exact absurd ((hA p hppad hvp).2 hSp) h1
  · -- near1
    intro p hb hax
    have hpt : p ≠ ((y : Nat), x) := by
      intro hcon
      exact realCell_not_border hc htreal (hcon ▸ hb)
    rw [if_neg hpt]
    have h1 : R p = 1 := inv.near1 p hb hax
    by_cases h2 : R p ∈ nbhdLabels R y x ∧ R p ≠ m
    · exfalso
      have hle := hmle _ h2.1
      have hne := h2.2
      rw [h1] at hle hne
      omega
    · rw [if_neg h2]
      exact h1
  · -- cnt_gt
    intro p hp
    by_cases hpt : p = ((y : Nat), x)
    · rw [if_pos hpt]
      exact hmlt
    · rw [if_neg hpt]
      by_cases h2 : R p ∈ nbhdLabels R y x ∧ R p ≠ m
      · rw [if_pos h2]
        exact hmlt
      · rw [if_neg h2]
        exact inv.cnt_gt p hp
  · -- corner12
    have hpt : ((N + 1 : Nat), (N + 1 : Nat)) ≠ ((y : Nat), x) := by
      intro hcon
      rw [Prod.ext_iff] at hcon
      simp only at hcon
      omega
    rw [if_neg hpt]
    rcases inv.corner12 with h | h
    · left
      rw [if_neg (by
        rintro ⟨hin, hne⟩
        rw [h] at hin hne
        have := hmle 1 hin
        omega)]
      exact h
    · by_cases h2 : R (N + 1, N + 1) ∈ nbhdLabels R y x ∧ R (N + 1, N + 1) ≠ m
      · rw [if_pos h2]
        have := hmle _ h2.1
        rw [h] at this
        omega
      · rw [if_neg h2]
        right
        exact h

/-! ## The combined insert step, and the untouched colour -/

theorem regionInv_insert {N c : Nat} {b R : Pos → Nat} {cnt : Nat}
    (hc : c = 0 ∨ c = 1) {y x : Nat}
    (hy1 : 1 ≤ y) (hyN : y ≤ N) (hx1 : 1 ≤ x) (hxN : x ≤ N)
    (he : b (y - 1, x - 1) = player.EMPTY) (inv : RegionInv N b R cnt c) :
    RegionInv N (fun q => if q = (y - 1, x - 1) then c else b q)
      (insertRegions R cnt y x).1 (insertRegions R cnt y x).2 c := by
  cases hmin : listMin (nbhdLabels R y x) with
  | none =>
    rw [insertRegions_none hmin]
    exact regionInv_insert_fresh hc hy1 hyN hx1 hxN he inv hmin
  | some m =>
    rw [insertRegions_some hmin]
    exact regionInv_insert_merge hc hy1 hyN hx1 hxN he inv hmin

theorem regionInv_place_other {N c c0 : Nat} {b R : Pos → Nat} {cnt : Nat}
    (hne : c ≠ c0) (hce : c ≠ player.EMPTY) {pos : Pos}
    (hold : b pos = player.EMPTY) (inv : RegionInv N b R cnt c) :
    RegionInv N (fun q => if q = pos then c0 else b q) R cnt c := by
  have hvs := vstone_place_other (N := N) hold hne hce
  refine ⟨?_, inv.outside, ?_, inv.near1, inv.cnt_gt, inv.cnt3, inv.corner12⟩
  · intro p hp
    rw [hvs p]
    exact inv.dom p hp
  · intro p q hp hq hvp hvq
    rw [inv.comp p q hp hq ((hvs p).1 hvp) ((hvs q).1 hvq)]
    exact (rtg_gstep_congr fun r => (hvs r).symm)

/-! ## The invariant at the initial state -/

theorem foldr_max_ge {l : List Nat} {v : Nat} (h : v ∈ l) :
    v ≤ l.foldr Nat.max 0 := by
  induction l with
  | nil => simp at h
  | cons a l ih =>
    rcases List.mem_cons.1 h with rfl | h
    · exact Nat.le_max_left _ _
    · exact le_trans (ih h) (Nat.le_max_right _ _)

theorem maxLabel_ge {N : Nat} {R : Pos → Nat} {p : Pos} (hp : inPad N p) :
    R p ≤ maxLabel N R := by
  obtain ⟨py, px⟩ := p
  obtain ⟨h1, h2⟩ := hp
  have hin : R (py, px) ∈ (List.range (N + 2)).map fun x2 => R (py, x2) :=
    List.mem_map.2 ⟨px, List.mem_range.2 (by simp at h2; omega), rfl⟩
  have hrow : R (py, px) ≤ ((List.range (N + 2)).map fun x2 => R (py, x2)).foldr Nat.max 0 :=
    foldr_max_ge hin
  have hin2 : ((List.range (N + 2)).map fun x2 => R (py, x2)).foldr Nat.max 0 ∈
      (List.range (N + 2)).map fun y2 =>
        ((List.range (N + 2)).map fun x2 => R (y2, x2)).foldr Nat.max 0 :=
    List.mem_map.2 ⟨py, List.mem_range.2 (by simp at h1; omega), rfl⟩
  exact le_trans hrow (foldr_max_ge hin2)

theorem initRegions_ax {c : Nat} (hc : c = 0 ∨ c = 1) (N : Nat) (p : Pos) :
    initRegions N c p =
      if inPad N p then
        (if ax c p = 0 then 1 else if ax c p = N + 1 then 2 else 0)
      else 0 := by
  rcases hc with rfl | rfl <;> simp [initRegions, ax, inPad, player.WHITE]

theorem ax_corner {c : Nat} (hc : c = 0 ∨ c = 1) (N : Nat) :
    ax c ((N + 1 : Nat), (N + 1 : Nat)) = N + 1 := by
  rcases hc with rfl | rfl <;> simp [ax, player.WHITE]

theorem inPad_corner (N : Nat) : inPad N ((N + 1 : Nat), (N + 1 : Nat)) :=
  ⟨le_refl _, le_refl _⟩

theorem initRegions_corner {c : Nat} (hc : c = 0 ∨ c = 1) (N : Nat) :
    initRegions N c (N + 1, N + 1) = 2 := by
  rw [initRegions_ax hc, if_pos (inPad_corner N), ax_corner hc]
  rw [if_neg (by omega), if_pos rfl]

theorem vstone_empty_iff {N c : Nat} (hc : c = 0 ∨ c = 1) (p : Pos) :
    vstone N c (fun _ => player.EMPTY) p ↔ isBorder N c p := by
  unfold vstone
  constructor
  · rintro (hb | ⟨hr, hs⟩)
    · exact hb
    · exfalso
      rcases hc with rfl | rfl <;> simp [player.EMPTY] at hs
  · exact Or.inl

theorem init_rtg_ax {N c : Nat} (hc : c = 0 ∨ c = 1) (hN : 1 ≤ N) {p r : Pos}
    (hp : isBorder N c p)
    (h : Relation.ReflTransGen (gstep N c (fun _ => player.EMPTY)) p r) :
    ax c r = ax c p := by
  induction h with
  | refl => rfl
  | tail hpre hstep ih =>
    rename_i mid r'
    obtain ⟨hadj, hvs⟩ := hstep
    have hbmid : isBorder N c mid :=
      (vstone_empty_iff hc mid).1 (rtg_vstone (Or.inl hp) hpre)
    have hbr' : isBorder N c r' := (vstone_empty_iff hc r').1 hvs
    have hd := ax_delta hc hadj
    rcases hbmid.2 with h1 | h1 <;> rcases hbr'.2 with h2 | h2 <;> omega

theorem regionInv_init {N c : Nat} (hN : 1 ≤ N) (hc : c = 0 ∨ c = 1) :
    RegionInv N (fun _ => player.EMPTY) (initRegions N c)
      (maxLabel N (initRegions N c) + 1) c := by
  refine ⟨?_, ?_, ?_, ?_, ?_, ?_, ?_⟩
  · intro p hp
    rw [vstone_empty_iff hc, initRegions_ax hc, if_pos hp]
    constructor
    · intro h0
      by_cases h1 : ax c p = 0
      · exact ⟨hp, Or.inl h1⟩
      · by_cases h2 : ax c p = N + 1
        · exact ⟨hp, Or.inr h2⟩
        · rw [if_neg h1, if_neg h2] at h0
          exact absurd rfl h0
    · rintro ⟨_, h1 | h1⟩
      · rw [if_pos h1]
        omega
      · by_cases h0 : ax c p = 0
        · rw [if_pos h0]
          omega
        · rw [if_neg h0, if_pos h1]
          omega
  · intro p hp
    rw [initRegions_ax hc, if_neg hp]
  · intro p q hppad hqpad hvp hvq
    have hbp := (vstone_empty_iff hc p).1 hvp
    have hbq := (vstone_empty_iff hc q).1 hvq
    rw [initRegions_ax hc, initRegions_ax hc, if_pos hppad, if_pos hqpad]
    rcases hbp.2 with h1 | h1 <;> rcases hbq.2 with h2 | h2
    · rw [if_pos h1, if_pos h2]
      exact iff_of_true rfl (border_line_conn hc (Or.inl h1) (by omega) hppad hqpad)
    · rw [if_pos h1, if_neg (by omega), if_pos h2]
      apply iff_of_false (by omega)
      intro hcon
      have := init_rtg_ax hc hN hbp hcon
      omega
    · rw [if_neg (by omega), if_pos h1, if_pos h2]
      apply iff_of_false (by omega)
      intro hcon
      have := init_rtg_ax hc hN hbp hcon
      omega
    · rw [if_neg (by omega), if_pos h1, if_neg (by omega), if_pos h2]
      exact iff_of_true rfl (border_line_conn hc (Or.inr h1) (by omega) hppad hqpad)
  · intro p hb hax
    rw [initRegions_ax hc, if_pos hb.1, if_pos hax]
  · intro p hp
    have := maxLabel_ge (R := initRegions N c) hp
    omega
  · have h2 : initRegions N c (N + 1, N + 1) = 2 := initRegions_corner hc N
    have := maxLabel_ge (R := initRegions N c) (inPad_corner N)
    omega
  · right
    exact initRegions_corner hc N

/-! ## The whole-game invariant along reachable states -/

theorem action_coords_lt {N : Nat} {g : HexGame} (hsize : g.board_size = N)
    {a : Nat} (ha : a < N * N) :
    (g.action_to_coordinate a).1 < N ∧ (g.action_to_coordinate a).2 < N := by
  have hN : 1 ≤ N := by
    rcases Nat.eq_zero_or_pos N with rfl | h
    · simp at ha
    · exact h
  unfold HexGame.action_to_coordinate
  rw [hsize]
  simp only
  constructor
  · exact (Nat.div_lt_iff_lt_mul (by omega)).2 (by omega)
  · have hmod : a % N + N * (a / N) = a := Nat.mod_add_div a N
    have : a % N < N := Nat.mod_lt a (by omega)
    omega

theorem gameInv_step {N : Nat} {g : HexGame} (inv : GameInv N g)
    {a : Nat} (ha : a < N * N) (hv : g.is_valid_move a) :
    GameInv N (g.fast_move a) := by
  obtain ⟨hsize, hact, hwin, hreg⟩ := inv
  obtain ⟨hy, hx⟩ := action_coords_lt hsize ha
  refine ⟨by rw [HexGame.fast_move_board_size]; exact hsize, ?_, ?_, ?_⟩
  · rw [HexGame.fast_move_active]
    rcases hact with h | h <;> rw [h] <;> simp
  · intro hdone'
    rw [HexGame.fast_move_done] at hdone'
    rw [HexGame.fast_move_winner]
    by_cases hcond : (insertRegions (g.regions g.active_player)
        (g.region_counter g.active_player) ((g.action_to_coordinate a).1 + 1)
        ((g.action_to_coordinate a).2 + 1)).1 (g.board_size + 1, g.board_size + 1) = 1
    · rw [if_pos hcond] at hdone'
      simp at hdone'
    · rw [if_neg hcond] at hdone'
      rw [if_neg hcond]
      by_cases hemp : g.empty_fields - 1 ≤ 0
      · rw [if_pos hemp] at hdone'
        simp at hdone'
      · rw [if_neg hemp] at hdone'
        exact hwin hdone'
  · intro c hcR
    by_cases hcc : c = g.active_player
    · subst hcc
      rw [HexGame.fast_move_board, HexGame.fast_move_regions_self,
        HexGame.fast_move_counter_self]
      have h := regionInv_insert (b := g.board) (R := g.regions g.active_player)
        (c := g.active_player) hcR
        (y := (g.action_to_coordinate a).1 + 1) (x := (g.action_to_coordinate a).2 + 1)
        (by omega) (by omega) (by omega) (by omega) hv (hreg _ hcR)
      exact h
    · rw [HexGame.fast_move_board, HexGame.fast_move_regions_ne g a hcc,
        HexGame.fast_move_counter_ne g a hcc]
      have hce : c ≠ player.EMPTY := by
        rcases hcR with rfl | rfl <;> simp [player.EMPTY]
      exact regionInv_place_other hcc hce hv (hreg c hcR)

theorem reachFrom_inv {g h : HexGame} (hr : ReachFrom g h) {N : Nat}
    (hinv : GameInv N g) : GameInv N h := by
  induction hr with
  | refl => exact hinv
  | step a hpre hdone ha hv ih =>
    refine gameInv_step ih ?_ hv
    rwa [ih.1] at ha

theorem reachable_gameInv {N : Nat} {g : HexGame} (hN : 1 ≤ N)
    (hg : Reachable N g) : GameInv N g := by
  obtain ⟨a0, ha0, hr⟩ := hg
  refine reachFrom_inv hr ⟨rfl, ha0, fun _ => rfl, ?_⟩
  intro c hcR
  exact regionInv_init hN hcR

/-! ## The shared corner under one insert step -/

theorem insert_corner_step {N c : Nat} {b : Pos → Nat} {R : Pos → Nat} {cnt : Nat}
    (inv : RegionInv N b R cnt c) {y x : Nat} (hyN : y ≤ N) :
    ((insertRegions R cnt y x).1 (N + 1, N + 1) = R (N + 1, N + 1) ∨
      (insertRegions R cnt y x).1 (N + 1, N + 1) = 1) ∧
    (R (N + 1, N + 1) = 1 → (insertRegions R cnt y x).1 (N + 1, N + 1) = 1) := by
  have hne : ((N + 1 : Nat), (N + 1 : Nat)) ≠ ((y : Nat), x) := by
    intro h
    rw [Prod.ext_iff] at h
    simp only at h
    omega
  cases hmin : listMin (nbhdLabels R y x) with
  | none =>
    rw [insertRegions_none hmin]
    simp only [if_neg hne]
    exact ⟨Or.inl trivial, fun h => h⟩
  | some m =>
    rw [insertRegions_some hmin]
    simp only [if_neg hne]
    have hmle := listMin_le hmin
    have hm0 : m ≠ 0 := (mem_nbhdLabels.1 (listMin_mem hmin)).2
    constructor
    · by_cases hcnd : R (N + 1, N + 1) ∈ nbhdLabels R y x ∧ R (N + 1, N + 1) ≠ m
      · have hlem := hmle _ hcnd.1
        have hnem := hcnd.2
        rcases inv.corner12 with h | h
        · rw [h] at hlem hnem
          omega
        · right
          rw [if_pos hcnd]
          rw [h] at hlem hnem
          omega
      · rw [if_neg hcnd]
        exact Or.inl rfl
    · intro h1
      by_cases hcnd : R (N + 1, N + 1) ∈ nbhdLabels R y x ∧ R (N + 1, N + 1) ≠ m
      · have hlem := hmle _ hcnd.1
        have hnem := hcnd.2
        rw [h1] at hlem hnem
        omega
      · rw [if_neg hcnd]
        exact h1

/-! ## Claim C6 -/

/-- C6: for both colours, the shared corner (N+1, N+1) of the padded
region grid is initialised to sentinel 2, in every reachable state it
holds 1 or 2, and each accepted move either keeps its value or sets it to
1 — and once it is 1 it stays 1. -/
theorem c6_corner_sentinel (N : Nat) (hN : 1 ≤ N) (g : HexGame) (hg : Reachable N g)
    (c : Nat) (hc : c = 0 ∨ c = 1) :
    (∀ a0, (HexGame.init N a0).regions c (N + 1, N + 1) = 2) ∧
    (g.regions c (N + 1, N + 1) = 1 ∨ g.regions c (N + 1, N + 1) = 2) ∧
    (∀ a, a < N * N → g.is_valid_move a →
      ((g.fast_move a).regions c (N + 1, N + 1) = g.regions c (N + 1, N + 1) ∨
        (g.fast_move a).regions c (N + 1, N + 1) = 1) ∧
      (g.regions c (N + 1, N + 1) = 1 →
        (g.fast_move a).regions c (N + 1, N + 1) = 1)) := by
  have hinv := reachable_gameInv hN hg
  obtain ⟨hsize, hact, hwin, hreg⟩ := hinv
  refine ⟨fun a0 => initRegions_corner hc N, (hreg c hc).corner12, ?_⟩
  intro a ha hv
  by_cases hcc : c = g.active_player
  · subst hcc
    rw [HexGame.fast_move_regions_self]
    exact insert_corner_step (hreg _ (by rcases hact with h | h <;> simp [h]))
      (by have := (action_coords_lt hsize ha).1; omega)
  · rw [HexGame.fast_move_regions_ne g a hcc]
    exact ⟨Or.inl rfl, fun h => h⟩

theorem c6_corner_sentinel_witness :
    (∀ a0, (HexGame.init 3 a0).regions 0 (3 + 1, 3 + 1) = 2) ∧
    (gameA.regions 0 (3 + 1, 3 + 1) = 1 ∨ gameA.regions 0 (3 + 1, 3 + 1) = 2) ∧
    (∀ a, a < 3 * 3 → gameA.is_valid_move a →
      ((gameA.fast_move a).regions 0 (3 + 1, 3 + 1) = gameA.regions 0 (3 + 1, 3 + 1) ∨
        (gameA.fast_move a).regions 0 (3 + 1, 3 + 1) = 1) ∧
      (gameA.regions 0 (3 + 1, 3 + 1) = 1 →
        (gameA.fast_move a).regions 0 (3 + 1, 3 + 1) = 1)) :=
  c6_corner_sentinel 3 (by decide) gameA reachable_gameA 0 (Or.inl rfl)

/-! ## Claim C10 -/

theorem board_persist {g h : HexGame} (hr : ReachFrom g h) :
    ∀ p, g.board p ≠ player.EMPTY → h.board p = g.board p := by
  induction hr with
  | refl => intro p _; rfl
  | step a hpre hdone ha hv ih =>
    rename_i g2
    intro p hp
    rw [HexGame.fast_move_board]
    simp only
    by_cases hpt : p = g2.action_to_coordinate a
    · exfalso
      have hv2 : g2.board p = player.EMPTY := by
        rw [hpt]
        exact hv
      rw [ih p hp] at hv2
      exact hp hv2
    · rw [if_neg hpt]
      exact ih p hp

/-- C10: an accepted move changes exactly one board cell — the target,
from EMPTY to the active colour — leaves every other cell and the entire
inactive colour's region grid unchanged, and an occupied cell keeps its
colour under every further sequence of valid moves. -/
theorem c10_move_frame (N : Nat) (hN : 1 ≤ N) (g : HexGame) (hg : Reachable N g)
    (a : Nat) (ha : a < N * N) (hv : g.is_valid_move a) :
    (g.board (g.action_to_coordinate a) = player.EMPTY ∧
      (g.fast_move a).board (g.action_to_coordinate a) = g.active_player ∧
      (g.fast_move a).board (g.action_to_coordinate a) ≠ player.EMPTY) ∧
    (∀ p, p ≠ g.action_to_coordinate a → (g.fast_move a).board p = g.board p) ∧
    (∀ c, c ≠ g.active_player → ∀ p, (g.fast_move a).regions c p = g.regions c p) ∧
    (∀ h2, ReachFrom (g.fast_move a) h2 →
      ∀ p, (g.fast_move a).board p ≠ player.EMPTY →
        h2.board p = (g.fast_move a).board p) := by
  have hinv := reachable_gameInv hN hg
  obtain ⟨hsize, hact, hwin, hreg⟩ := hinv
  refine ⟨⟨hv, ?_, ?_⟩, ?_, ?_, ?_⟩
  · rw [HexGame.fast_move_board]
    simp
  · rw [HexGame.fast_move_board]
    simp only [if_pos rfl]
    rcases hact with h | h <;> rw [h] <;> simp [player.EMPTY]
  · intro p hp
    rw [HexGame.fast_move_board]
    simp only
    rw [if_neg hp]
  · intro c hc p
    rw [HexGame.fast_move_regions_ne g a hc]
  · intro h2 hr p hp
    exact board_persist hr p hp

theorem c10_move_frame_witness :
    ((HexGame.init 2 0).board ((HexGame.init 2 0).action_to_coordinate 0) = player.EMPTY ∧
      ((HexGame.init 2 0).fast_move 0).board
        ((HexGame.init 2 0).action_to_coordinate 0) = (HexGame.init 2 0).active_player ∧
      ((HexGame.init 2 0).fast_move 0).board
        ((HexGame.init 2 0).action_to_coordinate 0) ≠ player.EMPTY) ∧
    (∀ p, p ≠ (HexGame.init 2 0).action_to_coordinate 0 →
      ((HexGame.init 2 0).fast_move 0).board p = (HexGame.init 2 0).board p) ∧
    (∀ c, c ≠ (HexGame.init 2 0).active_player →
      ∀ p, ((HexGame.init 2 0).fast_move 0).regions c p = (HexGame.init 2 0).regions c p) ∧
    (∀ h2, ReachFrom ((HexGame.init 2 0).fast_move 0) h2 →
      ∀ p, ((HexGame.init 2 0).fast_move 0).board p ≠ player.EMPTY →
        h2.board p = ((HexGame.init 2 0).fast_move 0).board p) :=
  c10_move_frame 2 (by decide) (HexGame.init 2 0) ⟨0, Or.inl rfl, ReachFrom.refl _⟩
    0 (by decide) (by decide)

/-! ## Claim C4 -/

/-- C4: a region counter starts at the grid's maximum label plus one; in
every reachable state it differs from the sentinels 1 and 2 and strictly
dominates every label in the grid, so the label handed out by the fresh
branch of `flood_fill` (which assigns the counter and increments it) never
collides with a sentinel or an existing label. -/
theorem c4_fresh_labels (N : Nat) (hN : 1 ≤ N) (g : HexGame) (hg : Reachable N g)
    (c : Nat) (hc : c = 0 ∨ c = 1) :
    (∀ a0, (HexGame.init N a0).region_counter c = maxLabel N (initRegions N c) + 1) ∧
    (g.region_counter c ≠ 1 ∧ g.region_counter c ≠ 2) ∧
    (∀ p, inPad N p → g.regions c p < g.region_counter c) ∧
    (∀ pos : Pos, g.active_player = c →
      listMin (nbhdLabels (g.regions c) (pos.1 + 1) (pos.2 + 1)) = none →
      (g.flood_fill pos).regions c (pos.1 + 1, pos.2 + 1) = g.region_counter c ∧
      (g.flood_fill pos).region_counter c = g.region_counter c + 1) := by
  have hinv := reachable_gameInv hN hg
  obtain ⟨hsize, hact, hwin, hreg⟩ := hinv
  have rinv := hreg c hc
  refine ⟨fun a0 => rfl, ⟨?_, ?_⟩, rinv.cnt_gt, ?_⟩
  · have := rinv.cnt3
    omega
  · have := rinv.cnt3
    omega
  · intro pos hacteq hmin
    have h1 := HexGame.flood_fill_regions_self g pos
    have h2 := HexGame.flood_fill_counter_self g pos
    rw [hacteq] at h1 h2
    rw [h1, h2, insertRegions_none hmin]
    exact ⟨by simp, rfl⟩

theorem c4_fresh_labels_witness :
    (∀ a0, (HexGame.init 3 a0).region_counter 0 = maxLabel 3 (initRegions 3 0) + 1) ∧
    ((HexGame.init 3 0).region_counter 0 ≠ 1 ∧ (HexGame.init 3 0).region_counter 0 ≠ 2) ∧
    (∀ p, inPad 3 p → (HexGame.init 3 0).regions 0 p < (HexGame.init 3 0).region_counter 0) ∧
    (∀ pos : Pos, (HexGame.init 3 0).active_player = 0 →
      listMin (nbhdLabels ((HexGame.init 3 0).regions 0) (pos.1 + 1) (pos.2 + 1)) = none →
      ((HexGame.init 3 0).flood_fill pos).regions 0 (pos.1 + 1, pos.2 + 1) =
        (HexGame.init 3 0).region_counter 0 ∧
      ((HexGame.init 3 0).flood_fill pos).region_counter 0 =
        (HexGame.init 3 0).region_counter 0 + 1) :=
  c4_fresh_labels 3 (by decide) (HexGame.init 3 0) ⟨0, Or.inl rfl, ReachFrom.refl _⟩
    0 (Or.inl rfl)

/-! ## Relating padded connectivity to raw edge-to-edge chains -/

theorem hexAdj_unshift {p q : Pos} (hp1 : 1 ≤ p.1) (hp2 : 1 ≤ p.2)
    (hq1 : 1 ≤ q.1) (hq2 : 1 ≤ q.2) (h : hexAdj p q) :
    hexAdj (rawOf p) (rawOf q) := by
  unfold hexAdj rawOf at *
  simp only at *
  omega

theorem ax_shift {c : Nat} (hc : c = 0 ∨ c = 1) (p : Pos) :
    ax c (p.1 + 1, p.2 + 1) = axR c p + 1 := by
  rcases hc with rfl | rfl <;> simp [ax, axR, player.WHITE]

theorem axR_rawOf {c : Nat} (hc : c = 0 ∨ c = 1) (p : Pos) :
    axR c (rawOf p) = ax c p - 1 := by
  rcases hc with rfl | rfl <;> simp [ax, axR, rawOf, player.WHITE]

theorem ox_shift_bounds {c : Nat} (hc : c = 0 ∨ c = 1) {N : Nat} {p : Pos}
    (h : rawIn N p) :
    1 ≤ ox c (p.1 + 1, p.2 + 1) ∧ ox c (p.1 + 1, p.2 + 1) ≤ N := by
  obtain ⟨h1, h2⟩ := h
  rcases hc with rfl | rfl <;> simp [ox, player.WHITE] <;> omega

theorem rawIn_rawOf {N : Nat} {p : Pos} (h : realCell N p) : rawIn N (rawOf p) := by
  obtain ⟨h1, h2, h3, h4⟩ := h
  exact ⟨by simp [rawOf]; omega, by simp [rawOf]; omega⟩

theorem realCell_of_rawIn {N : Nat} {p : Pos} (h : rawIn N p) :
    realCell N (p.1 + 1, p.2 + 1) := by
  obtain ⟨h1, h2⟩ := h
  exact ⟨by simp, by simp; omega, by simp, by simp; omega⟩

theorem mkp_zero_zero {c : Nat} (hc : c = 0 ∨ c = 1) :
    mkp c 0 0 = ((0 : Nat), (0 : Nat)) := by
  rcases hc with rfl | rfl <;> simp [mkp, player.WHITE]

theorem mkp_corner {c : Nat} (hc : c = 0 ∨ c = 1) (N : Nat) :
    mkp c (N + 1) (N + 1) = ((N + 1 : Nat), (N + 1 : Nat)) := by
  rcases hc with rfl | rfl <;> simp [mkp, player.WHITE]

theorem stone_vstone {N c : Nat} {b : Pos → Nat} {p : Pos} (hin : rawIn N p)
    (hcol : b p = c) : vstone N c b (p.1 + 1, p.2 + 1) := by
  right
  refine ⟨realCell_of_rawIn hin, ?_⟩
  have : rawOf (p.1 + 1, p.2 + 1) = p := by
    unfold rawOf
    simp
  rw [this]
  exact hcol

theorem lift_stones {N c : Nat} {b : Pos → Nat} {s e : Pos}
    (h : Relation.ReflTransGen (stoneStep N c b) s e) :
    Relation.ReflTransGen (gstep N c b) (s.1 + 1, s.2 + 1) (e.1 + 1, e.2 + 1) := by
  induction h with
  | refl => exact Relation.ReflTransGen.refl
  | tail hpre hstep ih =>
    rename_i mid e'
    obtain ⟨hadj, hin, hcol⟩ := hstep
    exact ih.tail ⟨hexAdj_shift.1 hadj, stone_vstone hin hcol⟩

/-- Extraction: a padded-grid path starting on a colour's near border can
only ever sit on the near border, sit on a stone reachable from a
near-side stone, or certify a full edge-to-edge chain (which is forced the
moment the path sets foot on the far border). -/
theorem extract_path {N c : Nat} (hc : c = 0 ∨ c = 1) (hN : 1 ≤ N)
    {b : Pos → Nat} {p0 r : Pos} (hp0 : isBorder N c p0) (hax0 : ax c p0 = 0)
    (h : Relation.ReflTransGen (gstep N c b) p0 r) :
    chain N c b ∨
    (ax c r = 0 ∧ inPad N r) ∨
    (realCell N r ∧ b (rawOf r) = c ∧
      ∃ s, rawIn N s ∧ b s = c ∧ axR c s = 0 ∧
        Relation.ReflTransGen (stoneStep N c b) s (rawOf r)) := by
  induction h with
  | refl => exact Or.inr (Or.inl ⟨hax0, hp0.1⟩)
  | tail hpre hstep ih =>
    rename_i mid r'
    obtain ⟨hadj, hvs⟩ := hstep
    rcases ih with hchain | hmid
    · exact Or.inl hchain
    · rcases hvs with ⟨hpad', hax'⟩ | ⟨hreal', hstone'⟩
      · rcases hax' with h0 | hfar
        · exact Or.inr (Or.inl ⟨h0, hpad'⟩)
        · rcases hmid with ⟨hmidax, hmidpad⟩ | ⟨hmidreal, hmidstone, s, hsin, hscol, hsax, hsrtg⟩
          · exfalso
            have hd := ax_delta hc hadj
            omega
          · left
            have hmidax := (realCell_ax_ox hc).1 hmidreal
            have hd := ax_delta hc hadj
            have haxmid : ax c mid = N := by omega
            refine ⟨s, rawOf mid, hsin, rawIn_rawOf hmidreal, hscol, hmidstone, hsax, ?_, hsrtg⟩
            rw [axR_rawOf hc, haxmid]
      · rcases hmid with ⟨hmidax, hmidpad⟩ | ⟨hmidreal, hmidstone, s, hsin, hscol, hsax, hsrtg⟩
        · right
          right
          have hrx := (realCell_ax_ox hc).1 hreal'
          have hd := ax_delta hc hadj
          have hax1 : ax c r' = 1 := by omega
          refine ⟨hreal', hstone', rawOf r', rawIn_rawOf hreal', hstone', ?_,
            Relation.ReflTransGen.refl⟩
          rw [axR_rawOf hc, hax1]
        · right
          right
          refine ⟨hreal', hstone', s, hsin, hscol, hsax, hsrtg.tail ?_⟩
          refine ⟨?_, rawIn_rawOf hreal', hstone'⟩
          exact hexAdj_unshift hmidreal.1 hmidreal.2.2.1 hreal'.1 hreal'.2.2.1 hadj

/-- Lifting: an edge-to-edge chain of stones yields a padded-grid path
from the near corner (0, 0) to the win-detection corner (N+1, N+1). -/
theorem lift_chain {N c : Nat} (hc : c = 0 ∨ c = 1) (hN : 1 ≤ N)
    {b : Pos → Nat} (h : chain N c b) :
    Relation.ReflTransGen (gstep N c b) (0, 0) ((N + 1 : Nat), (N + 1 : Nat)) := by
  obtain ⟨s, e, hsin, hein, hscol, hecol, hsax, heax, hrtg⟩ := h
  have hsreal : realCell N (s.1 + 1, s.2 + 1) := realCell_of_rawIn hsin
  have hereal : realCell N (e.1 + 1, e.2 + 1) := realCell_of_rawIn hein
  have haxsp : ax c (s.1 + 1, s.2 + 1) = 1 := by rw [ax_shift hc, hsax]
  have haxep : ax c (e.1 + 1, e.2 + 1) = N := by
    rw [ax_shift hc, heax]
    omega
  obtain ⟨hoxs1, hoxsN⟩ := ox_shift_bounds hc hsin
  obtain ⟨hoxe1, hoxeN⟩ := ox_shift_bounds hc hein
  -- from (0,0) along the near border
  have step1 : Relation.ReflTransGen (gstep N c b) (0, 0)
      (mkp c 0 (ox c (s.1 + 1, s.2 + 1))) := by
    rw [← mkp_zero_zero hc]
    refine border_line_conn hc ?_ ?_ ?_ ?_
    · rw [ax_mkp hc]
      exact Or.inl rfl
    · rw [ax_mkp hc, ax_mkp hc]
    · rw [inPad_ax_ox hc, ax_mkp hc, ox_mkp hc]
      omega
    · rw [inPad_ax_ox hc, ax_mkp hc, ox_mkp hc]
      omega
  -- onto the first stone
  have hmkp1 : mkp c 1 (ox c (s.1 + 1, s.2 + 1)) = (s.1 + 1, s.2 + 1) := by
    have h := mkp_ax_ox hc (s.1 + 1, s.2 + 1)
    rw [haxsp] at h
    exact h
  have step2 : gstep N c b (mkp c 0 (ox c (s.1 + 1, s.2 + 1))) (s.1 + 1, s.2 + 1) := by
    refine ⟨?_, stone_vstone hsin hscol⟩
    have h2 : hexAdj (mkp c 0 (ox c (s.1 + 1, s.2 + 1)))
        (mkp c 1 (ox c (s.1 + 1, s.2 + 1))) := by
      simpa using hexAdj_mkp_ax hc 0 (ox c (s.1 + 1, s.2 + 1))
    rw [hmkp1] at h2
    exact h2
  -- through the stones
  have step3 := lift_stones hrtg
  -- onto the far border
  have hmkpe : mkp c N (ox c (e.1 + 1, e.2 + 1)) = (e.1 + 1, e.2 + 1) := by
    have h := mkp_ax_ox hc (e.1 + 1, e.2 + 1)
    rw [haxep] at h
    exact h
  have hoxsub : ox c (e.1 + 1, e.2 + 1) - 1 + 1 = ox c (e.1 + 1, e.2 + 1) := by omega
  have step4 : gstep N c b (e.1 + 1, e.2 + 1)
      (mkp c (N + 1) (ox c (e.1 + 1, e.2 + 1) - 1)) := by
    refine ⟨?_, ?_⟩
    · have := hexAdj_mkp_diag hc N (ox c (e.1 + 1, e.2 + 1) - 1)
      rw [hoxsub, hmkpe] at this
      exact this
    · left
      refine ⟨?_, ?_⟩
      · rw [inPad_ax_ox hc, ax_mkp hc, ox_mkp hc]
        omega
      · rw [ax_mkp hc]
        exact Or.inr rfl
  -- along the far border to the corner
  have step5 : Relation.ReflTransGen (gstep N c b)
      (mkp c (N + 1) (ox c (e.1 + 1, e.2 + 1) - 1)) (mkp c (N + 1) (N + 1)) := by
    refine border_line_conn hc ?_ ?_ ?_ ?_
    · rw [ax_mkp hc]
      exact Or.inr rfl
    · rw [ax_mkp hc, ax_mkp hc]
    · rw [inPad_ax_ox hc, ax_mkp hc, ox_mkp hc]
      omega
    · rw [inPad_ax_ox hc, ax_mkp hc, ox_mkp hc]
      omega
  have hfinal := (((step1.tail step2).trans step3).tail step4).trans step5
  rwa [mkp_corner hc] at hfinal

/-- Under the region invariant, the win-detection corner holds label 1
exactly when the colour owns an edge-to-edge chain of stones. -/
theorem corner_one_iff_chain {N c : Nat} (hN : 1 ≤ N) (hc : c = 0 ∨ c = 1)
    {b R : Pos → Nat} {cnt : Nat} (inv : RegionInv N b R cnt c) :
    (R (N + 1, N + 1) = 1 ↔ chain N c b) := by
  have hcornerB : isBorder N c (N + 1, N + 1) :=
    ⟨inPad_corner N, Or.inr (ax_corner hc N)⟩
  have hax00 : ax c ((0 : Nat), (0 : Nat)) = 0 := by
    rcases hc with rfl | rfl <;> simp [ax, player.WHITE]
  have hnear00 : isBorder N c (0, 0) := ⟨⟨zero_le _, zero_le _⟩, Or.inl hax00⟩
  have h00 : R (0, 0) = 1 := inv.near1 _ hnear00 hax00
  have hcomp := inv.comp (N + 1, N + 1) (0, 0) (inPad_corner N)
    ⟨zero_le _, zero_le _⟩ (Or.inl hcornerB) (Or.inl hnear00)
  constructor
  · intro h1
    have heq : R (N + 1, N + 1) = R (0, 0) := by rw [h1, h00]
    have hconn := hcomp.1 heq
    have hconn2 := rtg_gstep_symm (Or.inl hcornerB) hconn
    rcases extract_path hc hN hnear00 hax00 hconn2 with hch | ⟨hax, _⟩ | ⟨hreal, _, _⟩
    · exact hch
    · rw [ax_corner hc] at hax
      omega
    · rcases (realCell_ax_ox hc).1 hreal with ⟨_, h2, _, _⟩
      rw [ax_corner hc] at h2
      omega
  · intro hch
    have hconn := lift_chain hc hN hch
    have hconn2 := rtg_gstep_symm (Or.inl hnear00) hconn
    have heq := hcomp.2 hconn2
    rw [heq, h00]

/-! ## Claim C2 -/

/-- C2: after every accepted move, the mover's padded region grid holds
label 1 at the shared corner exactly when the mover's stones now form an
unbroken chain joining the mover's two home edges; the state transitions
to Won(mover) — `winner = some mover`, with `done` set — exactly in that
case, so the win is reported at the move completing the chain, never
earlier and never later. -/
theorem c2_win_iff_chain (N : Nat) (hN : 1 ≤ N) (g : HexGame) (hg : Reachable N g)
    (hdone : g.done = false) (a : Nat) (ha : a < N * N) (hv : g.is_valid_move a) :
    ((g.fast_move a).regions g.active_player (N + 1, N + 1) = 1 ↔
      chain N g.active_player (g.fast_move a).board) ∧
    ((g.fast_move a).winner = some g.active_player ↔
      chain N g.active_player (g.fast_move a).board) ∧
    ((g.fast_move a).winner = some g.active_player → (g.fast_move a).done = true) := by
  obtain ⟨hsize, hact, hwin, hreg⟩ := reachable_gameInv hN hg
  have hg' : Reachable N (g.fast_move a) := by
    obtain ⟨a0, ha0, hr⟩ := hg
    exact ⟨a0, ha0, hr.step a hdone (by rwa [hsize]) hv⟩
  obtain ⟨hsize', hact', hwin', hreg'⟩ := reachable_gameInv hN hg'
  have hiff := corner_one_iff_chain hN hact (hreg' g.active_player hact)
  have hinsert : (insertRegions (g.regions g.active_player)
      (g.region_counter g.active_player) ((g.action_to_coordinate a).1 + 1)
      ((g.action_to_coordinate a).2 + 1)).1 (g.board_size + 1, g.board_size + 1) =
      (g.fast_move a).regions g.active_player (N + 1, N + 1) := by
    rw [HexGame.fast_move_regions_self, hsize]
  have hkeyw : (g.fast_move a).winner =
      if (g.fast_move a).regions g.active_player (N + 1, N + 1) = 1
      then some g.active_player else g.winner := by
    rw [HexGame.fast_move_winner, hinsert]
  have hkeyd : (g.fast_move a).regions g.active_player (N + 1, N + 1) = 1 →
      (g.fast_move a).done = true := by
    intro h1
    rw [HexGame.fast_move_done, hinsert, if_pos h1]
  refine ⟨hiff, ?_, ?_⟩
  · rw [hkeyw]
    by_cases hcorner : (g.fast_move a).regions g.active_player (N + 1, N + 1) = 1
    · rw [if_pos hcorner]
      exact iff_of_true rfl (hiff.1 hcorner)
    · rw [if_neg hcorner, hwin hdone]
      apply iff_of_false
      · simp
      · intro hch
        exact hcorner (hiff.2 hch)
  · intro hw
    rw [hkeyw] at hw
    by_cases hcorner : (g.fast_move a).regions g.active_player (N + 1, N + 1) = 1
    · exact hkeyd hcorner
    · rw [if_neg hcorner, hwin hdone] at hw
      simp at hw

theorem c2_win_iff_chain_witness :
    ((gameA.fast_move 4).regions gameA.active_player (3 + 1, 3 + 1) = 1 ↔
      chain 3 gameA.active_player (gameA.fast_move 4).board) ∧
    ((gameA.fast_move 4).winner = some gameA.active_player ↔
      chain 3 gameA.active_player (gameA.fast_move 4).board) ∧
    ((gameA.fast_move 4).winner = some gameA.active_player →
      (gameA.fast_move 4).done = true) :=
  c2_win_iff_chain 3 (by decide) gameA reachable_gameA (by decide) 4 (by decide) (by decide)

/-! ## Claim C1: the amended connectivity invariant -/

/-- C1 (amended): in every reachable state, every occupied cell carries a
non-zero label, and two same-colour occupied cells carry the same label in
that colour's region grid iff their padded images are connected in the
graph whose vertices are that colour's stones together with the colour's
two pre-seeded border lines (the virtual-stone graph `vconn`).  Two
stones touching the same home edge therefore share that edge's sentinel
label even without a stone path between them — connectivity through
stones only (`sameGroup`) is refuted by the counterexample. -/
theorem c1_labels_iff_vconn (N : Nat) (hN : 1 ≤ N) (g : HexGame) (hg : Reachable N g)
    (c : Nat) (hc : c = 0 ∨ c = 1) (p q : Pos)
    (hpin : rawIn N p) (hqin : rawIn N q)
    (hpc : g.board p = c) (hqc : g.board q = c) :
    g.regions c (p.1 + 1, p.2 + 1) ≠ 0 ∧
    (g.regions c (p.1 + 1, p.2 + 1) = g.regions c (q.1 + 1, q.2 + 1) ↔
      vconn N c g.board (p.1 + 1, p.2 + 1) (q.1 + 1, q.2 + 1)) := by
  obtain ⟨hsize, hact, hwin, hreg⟩ := reachable_gameInv hN hg
  have rinv := hreg c hc
  have hpvs : vstone N c g.board (p.1 + 1, p.2 + 1) := stone_vstone hpin hpc
  have hqvs : vstone N c g.board (q.1 + 1, q.2 + 1) := stone_vstone hqin hqc
  have hppad : inPad N (p.1 + 1, p.2 + 1) := vstone_inPad hpvs
  have hqpad : inPad N (q.1 + 1, q.2 + 1) := vstone_inPad hqvs
  exact ⟨(rinv.dom _ hppad).2 hpvs, rinv.comp _ _ hppad hqpad hpvs hqvs⟩

theorem c1_labels_iff_vconn_witness :
    gameA.regions 0 (0 + 1, 0 + 1) ≠ 0 ∧
    (gameA.regions 0 (0 + 1, 0 + 1) = gameA.regions 0 (0 + 1, 2 + 1) ↔
      vconn 3 0 gameA.board (0 + 1, 0 + 1) (0 + 1, 2 + 1)) :=
  c1_labels_iff_vconn 3 (by decide) gameA reachable_gameA 0 (Or.inl rfl)
    (0, 0) (0, 2) (by decide) (by decide) (by decide) (by decide)

end Minihex
